import Mathlib

/-!
Shallow embedding of `src/utils/explorer.py` (vickyax/optimal-path-finder).

The module under verification performs a priority-queue grid search over an
occupancy image, with three strategies selected by a one-character method
string, and reconstructs the path by backtracking a dense parent grid.

Modelling conventions:
* Python ints are `ℤ`, coordinates are pairs `(y, x) : ℤ × ℤ`.
* Accumulated costs are exact elements of ℤ[√2]: the value `a + b·√2` is the
  pair `Z2.mk a b`.  The source stores IEEE doubles; we model the idealized
  exact reals the arithmetic denotes (every cost produced by the search is
  `0`, or a previous cost plus `1` or plus `√2`).
* Frontier priorities are exact values `g + √m` with `g ∈ ℤ[√2]`, `m ∈ ℕ`
  (`m` is the squared Euclidean heuristic distance, `0` for the uniform and
  weighted strategies).  Priority comparisons are computed by an exact sign
  procedure on these algebraic numbers, modelling the float comparisons of
  `queue.PriorityQueue`.
* The dense numpy grids are total functions `ℤ → ℤ → _` together with a
  pointwise update combinator; numpy index errors that the search can hit
  are modelled with `Except`.
* `utils/constants.py` and `utils/actions.py` are imported by the source but
  are not part of the repository snapshot; the definitions marked
  `Modelled from the spec:` below reproduce their contracts from the spec.
-/

/-- Elements `a + b·√2` of ℤ[√2]; the exact value domain of accumulated
path costs (step costs are `1` and `√2`). -/
structure Z2 where
  a : ℤ
  b : ℤ
deriving DecidableEq

/-- Addition in ℤ[√2]. -/
def Z2.add (u v : Z2) : Z2 := ⟨u.a + v.a, u.b + v.b⟩

/-- Subtraction in ℤ[√2]. -/
def Z2.sub (u v : Z2) : Z2 := ⟨u.a - v.a, u.b - v.b⟩

/-- Squaring in ℤ[√2]: `(a + b√2)² = (a² + 2b²) + (2ab)√2`. -/
def Z2.sq (u : Z2) : Z2 := ⟨u.a ^ 2 + 2 * u.b ^ 2, 2 * u.a * u.b⟩

/-- Scaling by a natural number. -/
def Z2.scale (u : Z2) (m : ℕ) : Z2 := ⟨u.a * m, u.b * m⟩

/-- Exact sign (−1, 0, or 1) of the real number `a + b·√2`. -/
def Z2.sign (u : Z2) : ℤ :=
  if u.a = 0 ∧ u.b = 0 then 0
  else if 0 ≤ u.a ∧ 0 ≤ u.b then 1
  else if u.a ≤ 0 ∧ u.b ≤ 0 then -1
  else if 0 < u.a then
    if 2 * u.b ^ 2 < u.a ^ 2 then 1 else if u.a ^ 2 < 2 * u.b ^ 2 then -1 else 0
  else
    if u.a ^ 2 < 2 * u.b ^ 2 then 1 else if 2 * u.b ^ 2 < u.a ^ 2 then -1 else 0

/-- Real value denoted by an element of ℤ[√2]. -/
noncomputable def Z2.toReal (u : Z2) : ℝ := (u.a : ℝ) + (u.b : ℝ) * Real.sqrt 2

/-- Frontier priority value `g + √m` (`g ∈ ℤ[√2]`, `m ∈ ℕ`): the exact real
number the float priority of the source denotes. -/
structure Prio where
  g : Z2
  m : ℕ
deriving DecidableEq

/-- Real value denoted by a priority. -/
noncomputable def Prio.toReal (p : Prio) : ℝ := p.g.toReal + Real.sqrt (p.m : ℝ)

/-- Exact sign of `A + B·√m` for `A B ∈ ℤ[√2]`, `m ∈ ℕ`. -/
def signQ (A B : Z2) (m : ℕ) : ℤ :=
  let sA := A.sign
  let sB := if m = 0 then 0 else B.sign
  if sB = 0 then sA
  else if sA = 0 then sB
  else if sA = sB then sA
  else
    let d := Z2.sub A.sq (B.sq.scale m)
    if 0 < d.sign then sA else if d.sign < 0 then sB else 0

/-- Exact sign of `p1 − p2` for two priorities `p1 = g1 + √m1`,
`p2 = g2 + √m2`: first the sign of `g1 − g2 + √m1` is computed, then (when
that is nonnegative) the result is the sign of `(g1 − g2 + √m1)² − m2`. -/
def prioSign (p1 p2 : Prio) : ℤ :=
  let u := Z2.sub p1.g p2.g
  let L := signQ u ⟨1, 0⟩ p1.m
  if L < 0 then -1
  else if L = 0 then (if p2.m = 0 then 0 else -1)
  else signQ (Z2.sub (Z2.add u.sq ⟨(p1.m : ℤ), 0⟩) ⟨(p2.m : ℤ), 0⟩) (Z2.add u u) p1.m

/-- Grid coordinates `(y, x)`, exactly the tuples the source passes around. -/
abbrev Coord := ℤ × ℤ

/-- Strict lexicographic order on coordinate tuples, the tuple `<` of Python. -/
def coordLT (c1 c2 : Coord) : Bool :=
  if c1.1 < c2.1 then true
  else if c1.1 = c2.1 then decide (c1.2 < c2.2)
  else false

/-- Strict order on frontier entries `(priority, coord)`: priority first,
then the coordinate tuple — the Python comparison on the queue tuples. -/
def entryLT (e1 e2 : Prio × Coord) : Bool :=
  let s := prioSign e1.1 e2.1
  if s < 0 then true
  else if s = 0 then coordLT e1.2 e2.2
  else false

/-- Removing the least entry of the frontier list (the entry
`queue.PriorityQueue.get` returns; entries are totally ordered because no
coordinate is ever queued twice).  The earliest minimal entry is taken. -/
def popMin : List (Prio × Coord) → Option ((Prio × Coord) × List (Prio × Coord))
  | [] => none
  | e :: es =>
    match popMin es with
    | none => some (e, [])
    | some (me, rest) =>
      if entryLT me e then some (me, e :: rest) else some (e, es)

/-- Pointwise update of a dense grid, the effect of `grid[y][x] = v`. -/
def upd {α : Type} (g : ℤ → ℤ → α) (y x : ℤ) (v : α) : ℤ → ℤ → α :=
  fun y2 x2 => if y2 = y ∧ x2 = x then v else g y2 x2

/-- Modelled from the spec: `utils/constants.py` is not in the snapshot.
`NO_PARENT` is the sentinel filling the parent grid and the cost grid
("never reached"); it must differ from every flattened index (all of which
are nonnegative) and from `START_PARENT`. -/
def NO_PARENT : ℤ := -1

/-- Modelled from the spec: sentinel marking the start node in the parent
grid ("this is the origin, no parent"). -/
def START_PARENT : ℤ := -2

/-- Sentinel value of the cost grid: the source fills `base_cost` with
`constants.NO_PARENT`, so the never-reached cost value is `-1`. -/
def NO_COST : Z2 := ⟨NO_PARENT, 0⟩

/-- Modelled from the spec: the constant priority returned for the weighted
('b') strategy; its particular value never influences pop order because all
entries share it. -/
def NODE_COST_BFS : Prio := ⟨⟨0, 0⟩, 0⟩

/-- Modelled from the spec: `utils/actions.py` is not in the snapshot.
There are 8 candidate moves per expansion. -/
def MAX_ACTIONS : ℕ := 8

/-- Modelled from the spec: `take_action i node` returns the i-th neighbour
`(y, x)` of `node`; the first 4 actions are the axis-aligned unit moves, the
last 4 the diagonal moves. -/
def take_action (i : ℕ) (node : Coord) : Coord :=
  match i with
  | 0 => (node.1 + 1, node.2)
  | 1 => (node.1 - 1, node.2)
  | 2 => (node.1, node.2 + 1)
  | 3 => (node.1, node.2 - 1)
  | 4 => (node.1 + 1, node.2 + 1)
  | 5 => (node.1 + 1, node.2 - 1)
  | 6 => (node.1 - 1, node.2 + 1)
  | _ => (node.1 - 1, node.2 - 1)

/-- Occupancy image: `img y x` is the list of channel values of the pixel at
row `y`, column `x` (the `check_img[y, x]` vector of the source). -/
abbrev Img := ℤ → ℤ → List ℕ

/-- Embedding of `check_node_validity(check_img, x, y)` with
`constants.MAP_SIZE = (H, W)`: false when `x <= 0 or x >= W or y <= 0 or
y >= H`, false when `check_img[y, x].all() == 0` (that is, when not every
channel of the pixel is nonzero), true otherwise. -/
def check_node_validity (check_img : Img) (H W : ℤ) (x y : ℤ) : Bool :=
  if x ≤ 0 ∨ W ≤ x ∨ y ≤ 0 ∨ H ≤ y then false
  else if (check_img y x).all (fun v => v != 0) = false then false
  else true

/-- Failure modes of the embedded code: the invalid-strategy
`print`/`quit()` of `get_final_weight`, the `ValueError` that
`np.unravel_index` raises on the `NO_PARENT` sentinel during backtracking
(the `Unreachable` of the spec), the `ValueError` of `np.ravel_multi_index` on an
out-of-range coordinate, and exhaustion of the recursion fuel. -/
inductive Err where
  | invalidStrategy : Err
  | unreachable : Err
  | indexError : Err
  | noFuel : Err
deriving DecidableEq

/-- Squared Euclidean distance between two coordinates (a natural number). -/
def sq_dist (u v : Coord) : ℕ := ((u.1 - v.1) ^ 2 + (u.2 - v.2) ^ 2).toNat

/-- Embedding of `Explorer.get_final_weight(node, node_cost)` for a given
goal and method: for 'a' it returns `node_cost + √(sq_dist goal node)` (the
heuristic score of `get_heuristic_score` added to the cost), for 'b' the
fixed constant `NODE_COST_BFS`, for 'd' the cost unchanged; any other method
reaches the `print`/`quit()` branch, modelled as an error. -/
def get_final_weight (goal : Coord) (method : Char) (node : Coord)
    (node_cost : Z2) : Except Err Prio :=
  if method = 'a' then Except.ok ⟨node_cost, sq_dist goal node⟩
  else if method = 'b' then Except.ok NODE_COST_BFS
  else if method = 'd' then Except.ok ⟨node_cost, 0⟩
  else Except.error Err.invalidStrategy

/-- Embedding of `np.ravel_multi_index([y, x], dims=(H, W))`: the flattened
index `y*W + x`, defined only for in-range coordinates (numpy raises
otherwise). -/
def ravel_multi_index (H W : ℤ) (c : Coord) : Option ℤ :=
  if 0 ≤ c.1 ∧ c.1 < H ∧ 0 ≤ c.2 ∧ c.2 < W then some (c.1 * W + c.2) else none

/-- Embedding of `np.unravel_index(k, shape=(H, W))`: decodes a flattened
index back to `(y, x)`, defined only for `0 ≤ k < H*W` (numpy raises
otherwise — in particular on the sentinels). -/
def unravel_index (H W : ℤ) (k : ℤ) : Option Coord :=
  if 0 ≤ k ∧ k < H * W then some (k / W, k % W) else none

/-- Mutable state of one `explore` run: the two dense grids, the
`generated_nodes` log, and the frontier list.  The `popped`, `expanded` and
`pushed` fields are specification-only traces (the source keeps no such
lists): `popped` records every coordinate returned by `queue.get` in order,
`expanded` those popped coordinates whose 8 moves were then generated (the
goal pop breaks first), `pushed` every coordinate passed to `queue.put` in
order. -/
structure ExpState where
  base_cost : ℤ → ℤ → Z2
  parent : ℤ → ℤ → ℤ
  generated_nodes : List Coord
  node_queue : List (Prio × Coord)
  popped : List Coord
  expanded : List Coord
  pushed : List Coord

/-- Read-only context of one `explore` run: the map image, the map size
`constants.MAP_SIZE = (H, W)`, and the goal and method of the explorer. -/
structure Ctx where
  img : Img
  H : ℤ
  W : ℤ
  goal : Coord
  method : Char

/-- Embedding of one iteration of the inner `for i in range(MAX_ACTIONS)`
body of `explore`: compute the candidate `(y, x) = take_action(i, cur)`;
when `check_node_validity(map_img, x, H - y)` holds and
`parent[y][x] == NO_PARENT`, set `base_cost[y][x]` to the current-node
cost plus `1` (`i < 4`) or `√2` (otherwise), push
`(get_final_weight((y,x), base_cost[y][x]), (y,x))`, append `(y, x)` to
`generated_nodes`, and set `parent[y][x]` to the flattened index of `cur`;
otherwise the state is unchanged. -/
def processMove (ctx : Ctx) (cur : Coord) (s : ExpState) (i : ℕ) :
    Except Err ExpState :=
  let c := take_action i cur
  if check_node_validity ctx.img ctx.H ctx.W c.2 (ctx.H - c.1) = true ∧
      s.parent c.1 c.2 = NO_PARENT then
    let step : Z2 := if i < 4 then ⟨1, 0⟩ else ⟨0, 1⟩
    let nc := Z2.add (s.base_cost cur.1 cur.2) step
    match get_final_weight ctx.goal ctx.method c nc with
    | Except.error e => Except.error e
    | Except.ok pr =>
      match ravel_multi_index ctx.H ctx.W cur with
      | none => Except.error Err.indexError
      | some pv =>
        Except.ok { s with
          base_cost := upd s.base_cost c.1 c.2 nc
          node_queue := s.node_queue ++ [(pr, c)]
          generated_nodes := s.generated_nodes ++ [c]
          pushed := s.pushed ++ [c]
          parent := upd s.parent c.1 c.2 pv }
  else Except.ok s

/-- Embedding of one iteration of the `while not node_queue.empty()` loop:
pop the least entry; stop if the queue was empty or the popped node is the
goal (`Sum.inr` carries the final state); otherwise run the 8 moves and
continue (`Sum.inl`). -/
def exploreStep (ctx : Ctx) (s : ExpState) : Except Err (ExpState ⊕ ExpState) :=
  match popMin s.node_queue with
  | none => Except.ok (Sum.inr s)
  | some (e, rest) =>
    let n := e.2
    let s1 : ExpState := { s with node_queue := rest, popped := s.popped ++ [n] }
    if n = ctx.goal then Except.ok (Sum.inr s1)
    else
      let s2 : ExpState := { s1 with expanded := s1.expanded ++ [n] }
      Except.map Sum.inl ((List.range MAX_ACTIONS).foldlM (processMove ctx n) s2)

/-- Fuel-indexed iteration of `exploreStep`; with fuel `0` the current state
is returned (one entry is popped per iteration and every coordinate is
pushed at most once, so fuel `H*W + 2` always reaches the own exit of the loop). -/
def exploreLoop (ctx : Ctx) : ℕ → ExpState → Except Err ExpState
  | 0, s => Except.ok s
  | Nat.succ f, s =>
    match exploreStep ctx s with
    | Except.error e => Except.error e
    | Except.ok (Sum.inr sf) => Except.ok sf
    | Except.ok (Sum.inl s1) => exploreLoop ctx f s1

/-- Embedding of the `Explorer` object: `__init__` stores the start node,
goal node and method unvalidated (the video-writer side effect is out of
scope). -/
structure Explorer where
  start_node : Coord
  goal_node : Coord
  method : Char

/-- Embedding of the seeding prefix of `explore` (before the while loop):
`base_cost[start] = 0`, append the start to `generated_nodes`,
`parent[start] = START_PARENT`, and push
`(get_final_weight(start, 0), start)` — where `get_final_weight` terminates
the program on an invalid method. -/
def Explorer.seed (E : Explorer) : Except Err ExpState :=
  let s0 : ExpState :=
    { base_cost := upd (fun _ _ => NO_COST) E.start_node.1 E.start_node.2 ⟨0, 0⟩
      parent := upd (fun _ _ => NO_PARENT) E.start_node.1 E.start_node.2 START_PARENT
      generated_nodes := [E.start_node]
      node_queue := []
      popped := []
      expanded := []
      pushed := [E.start_node] }
  match get_final_weight E.goal_node E.method E.start_node ⟨0, 0⟩ with
  | Except.error e => Except.error e
  | Except.ok pr => Except.ok { s0 with node_queue := [(pr, E.start_node)] }

/-- Embedding of `Explorer.explore(map_img)` on a map of size `(H, W)`:
seed, then run the loop. -/
def Explorer.explore (E : Explorer) (img : Img) (H W : ℤ) (fuel : ℕ) :
    Except Err ExpState :=
  match E.seed with
  | Except.error e => Except.error e
  | Except.ok s => exploreLoop ⟨img, H, W, E.goal_node, E.method⟩ fuel s

/-- Embedding of the `while self.parent[last] != START_PARENT` loop of
`generate_path`: follow parent links, decoding flattened indices, appending
each predecessor; decoding fails on the `NO_PARENT` sentinel (numpy raises),
which is the `Unreachable` of the spec. -/
def generate_path_aux (parent : ℤ → ℤ → ℤ) (H W : ℤ) :
    ℕ → Coord → List Coord → Except Err (List Coord)
  | 0, _, _ => Except.error Err.noFuel
  | Nat.succ f, last, acc =>
    if parent last.1 last.2 = START_PARENT then Except.ok acc
    else
      match unravel_index H W (parent last.1 last.2) with
      | none => Except.error Err.unreachable
      | some nxt => generate_path_aux parent H W f nxt (acc ++ [nxt])

/-- Embedding of `Explorer.generate_path`: start from the goal (already in
the list) and backtrack. -/
def generate_path (parent : ℤ → ℤ → ℤ) (H W : ℤ) (goal : Coord) (fuel : ℕ) :
    Except Err (List Coord) :=
  generate_path_aux parent H W fuel goal [goal]

/-- Fallback state used by the result projections below. -/
def emptyState : ExpState :=
  ⟨fun _ _ => NO_COST, fun _ _ => NO_PARENT, [], [], [], [], []⟩

/-- State carried by a successful `explore` result (fallback otherwise). -/
def stateOf (r : Except Err ExpState) : ExpState :=
  match r with
  | Except.ok s => s
  | Except.error _ => emptyState

/-- Cost-grid cell of a successful `explore` result. -/
def costAt (r : Except Err ExpState) (y x : ℤ) : Option Z2 :=
  match r with
  | Except.ok s => some (s.base_cost y x)
  | Except.error _ => none

/-- Parent-grid cell of a successful `explore` result. -/
def parentAt (r : Except Err ExpState) (y x : ℤ) : Option ℤ :=
  match r with
  | Except.ok s => some (s.parent y x)
  | Except.error _ => none

/-- Error of a failed `explore` result. -/
def errOf (r : Except Err ExpState) : Option Err :=
  match r with
  | Except.ok _ => none
  | Except.error e => some e

/-- Fully free 4×4 test map: every pixel has one nonzero channel. -/
def img4open : Img := fun _ _ => [255]

/-- Test explorer on the 4×4 map: start `(1,1)`, goal `(1,2)`, uniform
strategy. -/
def E4 : Explorer := ⟨(1, 1), (1, 2), 'd'⟩

/-- Test map whose pixel `(3, 1)` is occupied, so that the node `(1, 1)`
(probed at image row `4 - 1 = 3`) fails the traversability check. -/
def img3occ : Img := fun y x => if y = 3 ∧ x = 1 then [0] else [255]

/-- Explorer whose start node `(1, 1)` is occupied on `img3occ`. -/
def E3 : Explorer := ⟨(1, 1), (1, 2), 'd'⟩

/-- Test map whose pixel `(1, 1)` has one zero channel among nonzero ones
(not fully occupied in the sense of the spec). -/
def img5c : Img := fun y x => if y = 1 ∧ x = 1 then [0, 200, 200] else [255]

/-- Test map for the strategy-comparison scenario: pixels `(1, 2)` and
`(2, 2)` are occupied on a 5×5 map. -/
def img9 : Img := fun y x => if (y = 1 ∧ x = 2) ∨ (y = 2 ∧ x = 2) then [0] else [255]

/-- Uniform-strategy explorer for the comparison scenario: start `(2, 4)`,
goal `(4, 1)`. -/
def E9d : Explorer := ⟨(2, 4), (4, 1), 'd'⟩

/-- Heuristic-strategy explorer for the comparison scenario. -/
def E9a : Explorer := ⟨(2, 4), (4, 1), 'a'⟩

/-- Explorer constructed with the unrecognized method 'x'. -/
def E2x : Explorer := ⟨(1, 1), (1, 2), 'x'⟩

/-- State carried by an `exploreStep` outcome (continue or stop). -/
def stepRes : ExpState ⊕ ExpState → ExpState := Sum.elim id id

/-- In-range coordinates of an `(H, W)` grid (the domain on which numpy
flattening is defined). -/
def inBounds (H W : ℤ) (c : Coord) : Prop :=
  0 ≤ c.1 ∧ c.1 < H ∧ 0 ≤ c.2 ∧ c.2 < W

/-- Frontier coordinates of a state are all in range. -/
def queueInBounds (H W : ℤ) (s : ExpState) : Prop :=
  ∀ e ∈ s.node_queue, inBounds H W e.2

/-- Cost-parent coupling: any cell whose cost has been set (is not the
sentinel) has had its parent set as well. -/
def costParentInv (parent : ℤ → ℤ → ℤ) (base_cost : ℤ → ℤ → Z2) : Prop :=
  ∀ y x : ℤ, base_cost y x ≠ NO_COST → parent y x ≠ NO_PARENT

theorem upd_self {α : Type} (g : ℤ → ℤ → α) (y x : ℤ) (v : α) :
    upd g y x v y x = v := by
  simp [upd]

theorem upd_other {α : Type} (g : ℤ → ℤ → α) (y x : ℤ) (v : α) (y2 x2 : ℤ)
    (h : ¬(y2 = y ∧ x2 = x)) : upd g y x v y2 x2 = g y2 x2 := by
  simp only [upd, if_neg h]

theorem sq_dist_cast (u v : Coord) :
    ((sq_dist u v : ℕ) : ℝ) = ((u.1 - v.1 : ℤ) : ℝ) ^ 2 + ((u.2 - v.2 : ℤ) : ℝ) ^ 2 := by
  have hnn : (0 : ℤ) ≤ (u.1 - v.1) ^ 2 + (u.2 - v.2) ^ 2 := by positivity
  unfold sq_dist
  rw [← Int.cast_natCast (R := ℝ), Int.toNat_of_nonneg hnn]
  push_cast
  ring

/-- C1: for every node and accumulated cost, the priority computed by
`get_final_weight` is the accumulated cost unchanged for the uniform
strategy 'd'; the accumulated cost plus the Euclidean distance from the node
to the goal for the heuristic strategy 'a'; and the fixed constant
`NODE_COST_BFS`, independent of the accumulated cost and of the position
of the node, for the weighted strategy 'b'. -/
theorem claimC1_cost_model (goal node : Coord) (c : Z2) :
    (get_final_weight goal 'd' node c = Except.ok ⟨c, 0⟩ ∧
      Prio.toReal ⟨c, 0⟩ = c.toReal) ∧
    (get_final_weight goal 'a' node c = Except.ok ⟨c, sq_dist goal node⟩ ∧
      Prio.toReal ⟨c, sq_dist goal node⟩ =
        c.toReal +
          Real.sqrt (((goal.1 - node.1 : ℤ) : ℝ) ^ 2 + ((goal.2 - node.2 : ℤ) : ℝ) ^ 2)) ∧
    (∀ (node2 : Coord) (c2 : Z2),
      get_final_weight goal 'b' node2 c2 = Except.ok NODE_COST_BFS) := by
  refine ⟨⟨rfl, ?_⟩, ⟨rfl, ?_⟩, fun node2 c2 => rfl⟩
  · simp [Prio.toReal]
  · simp only [Prio.toReal]
    rw [sq_dist_cast]

/-- C5 (amended): `check_node_validity` returns true exactly when
`0 < x < W`, `0 < y < H` and every channel value of the pixel is nonzero;
it returns false when the coordinate lies on the zero-side border or out of
range, or when any channel of the pixel is zero. -/
theorem claimC5_validity_amended (img : Img) (H W x y : ℤ) :
    check_node_validity img H W x y = true ↔
      (0 < x ∧ x < W ∧ 0 < y ∧ y < H ∧
        (img y x).all (fun v => v != 0) = true) := by
  unfold check_node_validity
  by_cases h1 : x ≤ 0 ∨ W ≤ x ∨ y ≤ 0 ∨ H ≤ y
  · rw [if_pos h1]
    constructor
    · intro hff; exact absurd hff (by decide)
    · rintro ⟨hx1, hx2, hy1, hy2, _⟩
      exfalso
      rcases h1 with h | h | h | h <;> omega
  · rw [if_neg h1]
    push_neg at h1
    obtain ⟨hx1, hx2, hy1, hy2⟩ := h1
    by_cases h2 : (img y x).all (fun v => v != 0) = false
    · rw [if_pos h2]
      constructor
      · intro hff; exact absurd hff (by decide)
      · rintro ⟨_, _, _, _, hall⟩
        rw [h2] at hall
        exact absurd hall (by decide)
    · rw [if_neg h2]
      have hall : (img y x).all (fun v => v != 0) = true := by
        cases hb : (img y x).all (fun v => v != 0)
        · exact absurd hb h2
        · rfl
      simp [hall, hx1, hx2, hy1, hy2]

/-- C5 (counterexample): on a 5×5 map, the pixel `(1, 1)` of `img5c` has one
zero channel among nonzero ones — it is not "fully occupied (all channel
values zero)" and `(x, y) = (1, 1)` lies inside `[1, 4) × [1, 4)`, yet
`check_node_validity` returns false; and `(x, y) = (4, 1)` lies outside
`[1, width-1) × [1, height-1)` (its x is on the outermost ring), yet
`check_node_validity` returns true. -/
theorem claimC5_validity_counterexample :
    check_node_validity img5c 5 5 1 1 = false ∧
    ((1 : ℤ) ≤ 1 ∧ (1 : ℤ) < 5 - 1) ∧
    (img5c 1 1).any (fun v => v != 0) = true ∧
    ¬ (img5c 1 1).all (fun v => v = 0) = true ∧
    check_node_validity img5c 5 5 4 1 = true ∧
    ¬ ((4 : ℤ) < 5 - 1) := by
  refine ⟨by decide, ⟨by decide, by decide⟩, by decide, by decide, by decide, by decide⟩

/-- C4: whenever `generate_path` is invoked while the entry of the goal in the
parent grid is still the `NO_PARENT` sentinel (the search ended exhausted),
it fails with the `Unreachable` error (the sentinel is not a valid flattened
index, so backtracking cannot decode it) rather than returning a path. -/
theorem claimC4_generate_path_unreachable (parent : ℤ → ℤ → ℤ) (H W : ℤ)
    (goal : Coord) (fuel : ℕ) (hp : parent goal.1 goal.2 = NO_PARENT)
    (hf : 0 < fuel) :
    generate_path parent H W goal fuel = Except.error Err.unreachable := by
  obtain ⟨f, rfl⟩ : ∃ f, fuel = f + 1 := ⟨fuel - 1, by omega⟩
  unfold generate_path generate_path_aux
  rw [hp]
  rw [if_neg (by decide : ¬(NO_PARENT = START_PARENT))]
  have h2 : unravel_index H W NO_PARENT = none := by
    unfold unravel_index NO_PARENT
    rw [if_neg]
    rintro ⟨h, _⟩
    omega
  rw [h2]

/-- C4 witness: on the all-sentinel parent grid the backtracker fails with
`Unreachable`. -/
theorem claimC4_generate_path_unreachable_witness :
    (fun (_ _ : ℤ) => NO_PARENT) (1 : ℤ) (1 : ℤ) = NO_PARENT ∧ 0 < 10 ∧
    generate_path (fun _ _ => NO_PARENT) 4 4 (1, 1) 10 =
      Except.error Err.unreachable :=
  ⟨rfl, by decide,
    claimC4_generate_path_unreachable (fun _ _ => NO_PARENT) 4 4 (1, 1) 10 rfl
      (by decide)⟩

/-- C2 (amended): for every strategy value outside {'a','b','d'},
construction succeeds (the constructor stores the method unvalidated); the
failure is raised lazily by `get_final_weight` at the first priority
computation — when `explore` pushes the start node, after the start cell has
already been seeded but before any node is popped — not at construction. -/
theorem claimC2_lazy_strategy_error (m : Char) (ha : m ≠ 'a') (hb : m ≠ 'b')
    (hd : m ≠ 'd') :
    (∀ (goal node : Coord) (c : Z2),
      get_final_weight goal m node c = Except.error Err.invalidStrategy) ∧
    (∀ (E : Explorer) (img : Img) (H W : ℤ) (fuel : ℕ), E.method = m →
      E.explore img H W fuel = Except.error Err.invalidStrategy) := by
  have hg : ∀ (goal node : Coord) (c : Z2),
      get_final_weight goal m node c = Except.error Err.invalidStrategy := by
    intro goal node c
    unfold get_final_weight
    rw [if_neg ha, if_neg hb, if_neg hd]
  refine ⟨hg, ?_⟩
  intro E img H W fuel hE
  have hseed : E.seed = Except.error Err.invalidStrategy := by
    unfold Explorer.seed
    simp only [hE, hg]
  unfold Explorer.explore
  rw [hseed]

/-- C2 (counterexample): the explorer constructed with the invalid method
'x' is a normal object (construction does not fail), and the
invalid-strategy failure is produced by `explore`, not by construction. -/
theorem claimC2_counterexample :
    E2x.method = 'x' ∧ E2x.start_node = (1, 1) ∧
    Explorer.explore E2x img4open 4 4 20 = Except.error Err.invalidStrategy :=
  ⟨rfl, rfl, by rfl⟩

/-- C2 witness: the amended statement at the concrete method 'x'. -/
theorem claimC2_lazy_strategy_error_witness :
    ('x' ≠ 'a' ∧ 'x' ≠ 'b' ∧ 'x' ≠ 'd') ∧
    get_final_weight (1, 2) 'x' (1, 1) ⟨0, 0⟩ =
      Except.error Err.invalidStrategy ∧
    Explorer.explore E2x img4open 4 4 20 = Except.error Err.invalidStrategy :=
  ⟨⟨by decide, by decide, by decide⟩,
    (claimC2_lazy_strategy_error 'x' (by decide) (by decide) (by decide)).1
      (1, 2) (1, 1) ⟨0, 0⟩,
    (claimC2_lazy_strategy_error 'x' (by decide) (by decide) (by decide)).2
      E2x img4open 4 4 20 rfl⟩

theorem processMove_elim {ctx : Ctx} {cur : Coord} {s : ExpState} {i : ℕ}
    {r : ExpState} (h : processMove ctx cur s i = Except.ok r) :
    r = s ∨
    (check_node_validity ctx.img ctx.H ctx.W (take_action i cur).2
        (ctx.H - (take_action i cur).1) = true ∧
      s.parent (take_action i cur).1 (take_action i cur).2 = NO_PARENT ∧
      ∃ pr pv,
        ravel_multi_index ctx.H ctx.W cur = some pv ∧
        get_final_weight ctx.goal ctx.method (take_action i cur)
            (Z2.add (s.base_cost cur.1 cur.2)
              (if i < 4 then (⟨1, 0⟩ : Z2) else ⟨0, 1⟩)) = Except.ok pr ∧
        r = { s with
          base_cost := upd s.base_cost (take_action i cur).1 (take_action i cur).2
            (Z2.add (s.base_cost cur.1 cur.2)
              (if i < 4 then (⟨1, 0⟩ : Z2) else ⟨0, 1⟩))
          node_queue := s.node_queue ++ [(take_action i cur |> fun c => (pr, c))]
          generated_nodes := s.generated_nodes ++ [take_action i cur]
          pushed := s.pushed ++ [take_action i cur]
          parent := upd s.parent (take_action i cur).1 (take_action i cur).2 pv }) := by
  simp only [processMove] at h
  by_cases hc : check_node_validity ctx.img ctx.H ctx.W (take_action i cur).2
      (ctx.H - (take_action i cur).1) = true ∧
      s.parent (take_action i cur).1 (take_action i cur).2 = NO_PARENT
  · rw [if_pos hc] at h
    cases hg : get_final_weight ctx.goal ctx.method (take_action i cur)
        (Z2.add (s.base_cost cur.1 cur.2)
          (if i < 4 then (⟨1, 0⟩ : Z2) else ⟨0, 1⟩)) with
    | error e => rw [hg] at h; exact Except.noConfusion h
    | ok pr =>
      rw [hg] at h
      cases hrv : ravel_multi_index ctx.H ctx.W cur with
      | none => rw [hrv] at h; exact Except.noConfusion h
      | some pv =>
        rw [hrv] at h
        injection h with h2
        right
        exact ⟨hc.1, hc.2, pr, pv, rfl, rfl, h2.symm⟩
  · rw [if_neg hc] at h
    injection h with h2
    exact Or.inl h2.symm

theorem ravel_nonneg {H W : ℤ} {c : Coord} {pv : ℤ}
    (h : ravel_multi_index H W c = some pv) : 0 ≤ pv := by
  unfold ravel_multi_index at h
  split at h
  · injection h with h2
    rename_i hb
    obtain ⟨h1, h2b, h3, h4⟩ := hb
    rw [← h2]
    have hW : 0 < W := lt_of_le_of_lt h3 h4
    nlinarith
  · exact Option.noConfusion h

theorem processMove_preserves_set_cell {ctx : Ctx} {cur : Coord}
    {s : ExpState} {i : ℕ} {r : ExpState}
    (h : processMove ctx cur s i = Except.ok r) (y x : ℤ)
    (hy : s.parent y x ≠ NO_PARENT) :
    r.parent y x = s.parent y x ∧ r.base_cost y x = s.base_cost y x := by
  rcases processMove_elim h with rfl | ⟨hc, hpar, pr, pv, hrv, hg, rfl⟩
  · exact ⟨rfl, rfl⟩
  · have hne : ¬(y = (take_action i cur).1 ∧ x = (take_action i cur).2) := by
      rintro ⟨rfl, rfl⟩
      exact hy hpar
    exact ⟨upd_other _ _ _ _ _ _ hne, upd_other _ _ _ _ _ _ hne⟩

theorem processMove_costParent {ctx : Ctx} {cur : Coord} {s : ExpState}
    {i : ℕ} {r : ExpState} (h : processMove ctx cur s i = Except.ok r)
    (hI : costParentInv s.parent s.base_cost) :
    costParentInv r.parent r.base_cost := by
  rcases processMove_elim h with rfl | ⟨hc, hpar, pr, pv, hrv, hg, rfl⟩
  · exact hI
  · intro y x hcost
    by_cases he : y = (take_action i cur).1 ∧ x = (take_action i cur).2
    · obtain ⟨rfl, rfl⟩ := he
      have hpv : 0 ≤ pv := ravel_nonneg hrv
      show upd s.parent (take_action i cur).1 (take_action i cur).2 pv
          (take_action i cur).1 (take_action i cur).2 ≠ NO_PARENT
      rw [upd_self]
      unfold NO_PARENT
      omega
    · have hcost2 : upd s.base_cost (take_action i cur).1 (take_action i cur).2
          (Z2.add (s.base_cost cur.1 cur.2)
            (if i < 4 then (⟨1, 0⟩ : Z2) else ⟨0, 1⟩)) y x ≠ NO_COST := hcost
      rw [upd_other _ _ _ _ _ _ he] at hcost2
      show upd s.parent (take_action i cur).1 (take_action i cur).2 pv y x ≠
        NO_PARENT
      rw [upd_other _ _ _ _ _ _ he]
      exact hI y x hcost2

theorem foldlM_processMove_pres {ctx : Ctx} {cur : Coord}
    (P : ExpState → Prop)
    (hstep : ∀ t i t', P t → processMove ctx cur t i = Except.ok t' → P t')
    (l : List ℕ) :
    ∀ (s s' : ExpState), List.foldlM (processMove ctx cur) s l = Except.ok s' →
      P s → P s' := by
  induction l with
  | nil =>
    intro s s' h hP
    have h2 : (Except.ok s : Except Err ExpState) = Except.ok s' := h
    injection h2 with h3
    exact h3 ▸ hP
  | cons i l ih =>
    intro s s' h hP
    rw [List.foldlM_cons] at h
    cases hi : processMove ctx cur s i with
    | error e =>
      rw [hi] at h
      exact Except.noConfusion h
    | ok t =>
      rw [hi] at h
      exact ih t s' h (hstep s i t hP hi)

theorem exploreStep_pres {ctx : Ctx} (P : ExpState → Prop)
    (hirr : ∀ (t : ExpState) (q : List (Prio × Coord)) (pp ee : List Coord),
      P t → P { t with node_queue := q, popped := pp, expanded := ee })
    (hstep : ∀ cur t i t', P t → processMove ctx cur t i = Except.ok t' → P t')
    {s : ExpState} {r : ExpState ⊕ ExpState}
    (h : exploreStep ctx s = Except.ok r) (hP : P s) : P (stepRes r) := by
  unfold exploreStep at h
  cases hq : popMin s.node_queue with
  | none =>
    rw [hq] at h
    injection h with h2
    rw [← h2]
    exact hP
  | some er =>
    obtain ⟨e, rest⟩ := er
    rw [hq] at h
    have h2 : (if e.2 = ctx.goal then
          (Except.ok (Sum.inr { s with
                                node_queue := rest,
                                popped := s.popped ++ [e.2] }) :
            Except Err (ExpState ⊕ ExpState))
        else
          Except.map Sum.inl ((List.range MAX_ACTIONS).foldlM
            (processMove ctx e.2)
            { s with
              node_queue := rest, popped := s.popped ++ [e.2],
              expanded := s.expanded ++ [e.2] })) = Except.ok r := h
    by_cases hg : e.2 = ctx.goal
    · rw [if_pos hg] at h2
      injection h2 with h3
      rw [← h3]
      exact hirr s rest (s.popped ++ [e.2]) s.expanded hP
    · rw [if_neg hg] at h2
      cases hf : ((List.range MAX_ACTIONS).foldlM (processMove ctx e.2)
          ({ s with
             node_queue := rest, popped := s.popped ++ [e.2],
             expanded := s.expanded ++ [e.2] } : ExpState)) with
      | error e2 =>
        rw [hf] at h2
        exact Except.noConfusion h2
      | ok s3 =>
        rw [hf] at h2
        have h4 : (Except.ok (Sum.inl s3) :
            Except Err (ExpState ⊕ ExpState)) = Except.ok r := h2
        injection h4 with h5
        rw [← h5]
        exact foldlM_processMove_pres P (hstep e.2) _ _ _ hf
          (hirr s rest (s.popped ++ [e.2]) (s.expanded ++ [e.2]) hP)

theorem exploreLoop_pres {ctx : Ctx} (P : ExpState → Prop)
    (hirr : ∀ (t : ExpState) (q : List (Prio × Coord)) (pp ee : List Coord),
      P t → P { t with node_queue := q, popped := pp, expanded := ee })
    (hstep : ∀ cur t i t', P t → processMove ctx cur t i = Except.ok t' → P t') :
    ∀ (fuel : ℕ) (s s' : ExpState), exploreLoop ctx fuel s = Except.ok s' →
      P s → P s' := by
  intro fuel
  induction fuel with
  | zero =>
    intro s s' h hP
    have h2 : (Except.ok s : Except Err ExpState) = Except.ok s' := h
    injection h2 with h3
    exact h3 ▸ hP
  | succ f ih =>
    intro s s' h hP
    unfold exploreLoop at h
    cases hst : exploreStep ctx s with
    | error e =>
      rw [hst] at h
      exact Except.noConfusion h
    | ok r =>
      rw [hst] at h
      cases r with
      | inr sf =>
        injection h with h2
        have hres := exploreStep_pres P hirr hstep hst hP
        rw [← h2]
        exact hres
      | inl s1 =>
        exact ih s1 s' h (exploreStep_pres P hirr hstep hst hP)

theorem seed_elim {E : Explorer} {s0 : ExpState}
    (h : E.seed = Except.ok s0) :
    ∃ pr, get_final_weight E.goal_node E.method E.start_node ⟨0, 0⟩ =
        Except.ok pr ∧
      s0 = { base_cost :=
               upd (fun _ _ => NO_COST) E.start_node.1 E.start_node.2 ⟨0, 0⟩
             parent :=
               upd (fun _ _ => NO_PARENT) E.start_node.1 E.start_node.2
                 START_PARENT
             generated_nodes := [E.start_node]
             node_queue := [(pr, E.start_node)]
             popped := []
             expanded := []
             pushed := [E.start_node] } := by
  unfold Explorer.seed at h
  cases hg : get_final_weight E.goal_node E.method E.start_node ⟨0, 0⟩ with
  | error e =>
    rw [hg] at h
    exact Except.noConfusion h
  | ok pr =>
    rw [hg] at h
    injection h with h2
    exact ⟨pr, rfl, h2.symm⟩

theorem exploreLoop_cell_freeze {ctx : Ctx} {fuel : ℕ} {s s' : ExpState}
    (h : exploreLoop ctx fuel s = Except.ok s') (y x : ℤ)
    (hy : s.parent y x ≠ NO_PARENT) :
    s'.parent y x = s.parent y x ∧ s'.base_cost y x = s.base_cost y x := by
  refine exploreLoop_pres
    (fun t => t.parent y x = s.parent y x ∧ t.base_cost y x = s.base_cost y x)
    (fun t q pp ee hPt => hPt) ?_ fuel s s' h ⟨rfl, rfl⟩
  intro cur t i t' hPt hok
  have hne : t.parent y x ≠ NO_PARENT := by
    rw [hPt.1]
    exact hy
  have hcell := processMove_preserves_set_cell hok y x hne
  exact ⟨hcell.1.trans hPt.1, hcell.2.trans hPt.2⟩

theorem exploreLoop_costParent {ctx : Ctx} {fuel : ℕ} {s s' : ExpState}
    (h : exploreLoop ctx fuel s = Except.ok s')
    (hI : costParentInv s.parent s.base_cost) :
    costParentInv s'.parent s'.base_cost :=
  exploreLoop_pres (fun t => costParentInv t.parent t.base_cost)
    (fun t q pp ee hPt => hPt)
    (fun cur t i t' hPt hok => processMove_costParent hok hPt) fuel s s' h hI

theorem seed_costParent {E : Explorer} {s0 : ExpState}
    (h : E.seed = Except.ok s0) : costParentInv s0.parent s0.base_cost := by
  obtain ⟨pr, hg, rfl⟩ := seed_elim h
  intro y x hc
  by_cases he : y = E.start_node.1 ∧ x = E.start_node.2
  · obtain ⟨rfl, rfl⟩ := he
    show upd (fun _ _ => NO_PARENT) E.start_node.1 E.start_node.2 START_PARENT
        E.start_node.1 E.start_node.2 ≠ NO_PARENT
    rw [upd_self]
    decide
  · have hc2 : upd (fun _ _ => NO_COST) E.start_node.1 E.start_node.2
        (⟨0, 0⟩ : Z2) y x ≠ NO_COST := hc
    rw [upd_other _ _ _ _ _ _ he] at hc2
    exact absurd rfl hc2

/-- C7: within a single run of `explore`, once the cost-grid entry of a cell has
been set to a non-sentinel value it is never written again.  First conjunct:
the seeded state couples cost-set cells with parent-set cells; second
conjunct: from any state with that coupling (which every reachable state of
a run has, since the coupling is also preserved), the rest of the loop never
changes a cost entry that is already non-sentinel, and the coupling still
holds at the end. -/
theorem claimC7_cost_write_once :
    (∀ (E : Explorer) (s0 : ExpState), E.seed = Except.ok s0 →
      costParentInv s0.parent s0.base_cost) ∧
    (∀ (ctx : Ctx) (fuel : ℕ) (s s' : ExpState),
      costParentInv s.parent s.base_cost →
      exploreLoop ctx fuel s = Except.ok s' →
      ∀ y x : ℤ, s.base_cost y x ≠ NO_COST →
        s'.base_cost y x = s.base_cost y x ∧
        costParentInv s'.parent s'.base_cost) := by
  constructor
  · intro E s0 h
    exact seed_costParent h
  · intro ctx fuel s s' hI h y x hc
    exact ⟨(exploreLoop_cell_freeze h y x (hI y x hc)).2,
      exploreLoop_costParent h hI⟩

/-- C7 witness: a concrete three-step run on the open 4×4 map leaves the
already-set start-cell cost unchanged. -/
theorem claimC7_cost_write_once_witness :
    E4.seed = Except.ok (stateOf E4.seed) ∧
    (stateOf E4.seed).base_cost 1 1 ≠ NO_COST ∧
    exploreLoop ⟨img4open, 4, 4, (1, 2), 'd'⟩ 3 (stateOf E4.seed) =
      Except.ok (stateOf
        (exploreLoop ⟨img4open, 4, 4, (1, 2), 'd'⟩ 3 (stateOf E4.seed))) ∧
    (stateOf (exploreLoop ⟨img4open, 4, 4, (1, 2), 'd'⟩ 3
        (stateOf E4.seed))).base_cost 1 1 = (stateOf E4.seed).base_cost 1 1 :=
  ⟨rfl, by decide, rfl,
    (claimC7_cost_write_once.2 ⟨img4open, 4, 4, (1, 2), 'd'⟩ 3
      (stateOf E4.seed)
      (stateOf (exploreLoop ⟨img4open, 4, 4, (1, 2), 'd'⟩ 3 (stateOf E4.seed)))
      (claimC7_cost_write_once.1 E4 (stateOf E4.seed) rfl) rfl 1 1
      (by decide)).1⟩

/-- C10: after `explore` returns, every cell other than the start node for
which the node-validity check (with the display-space row flip applied as in
the expansion loop) returns false still holds the `NO_PARENT` sentinel in
the parent grid and the sentinel cost in the cost grid. -/
theorem claimC10_invalid_cells_untouched (E : Explorer) (img : Img)
    (H W : ℤ) (fuel : ℕ) (s' : ExpState)
    (h : E.explore img H W fuel = Except.ok s') (y x : ℤ)
    (hne : ¬(y = E.start_node.1 ∧ x = E.start_node.2))
    (hv : check_node_validity img H W x (H - y) = false) :
    s'.parent y x = NO_PARENT ∧ s'.base_cost y x = NO_COST := by
  unfold Explorer.explore at h
  cases hs : E.seed with
  | error e =>
    rw [hs] at h
    exact Except.noConfusion h
  | ok s0 =>
    rw [hs] at h
    obtain ⟨pr, hg, rfl⟩ := seed_elim hs
    refine exploreLoop_pres
      (fun t => t.parent y x = NO_PARENT ∧ t.base_cost y x = NO_COST)
      (fun t q pp ee hPt => hPt) ?_ fuel _ s' h ?_
    · intro cur t i t' hPt hok
      rcases processMove_elim hok with rfl | ⟨hc, hpar, pr2, pv, hrv, hg2, rfl⟩
      · exact hPt
      · have hcne : ¬(y = (take_action i cur).1 ∧ x = (take_action i cur).2) := by
          rintro ⟨rfl, rfl⟩
          have hc2 : check_node_validity img H W (take_action i cur).2
              (H - (take_action i cur).1) = true := hc
          rw [hc2] at hv
          exact Bool.noConfusion hv
        exact ⟨(upd_other _ _ _ _ _ _ hcne).trans hPt.1,
          (upd_other _ _ _ _ _ _ hcne).trans hPt.2⟩
    · constructor
      · show upd (fun _ _ => NO_PARENT) E.start_node.1 E.start_node.2
            START_PARENT y x = NO_PARENT
        rw [upd_other _ _ _ _ _ _ hne]
      · show upd (fun _ _ => NO_COST) E.start_node.1 E.start_node.2
            (⟨0, 0⟩ : Z2) y x = NO_COST
        rw [upd_other _ _ _ _ _ _ hne]

/-- C10 witness: on the open 4×4 map the border cell `(0, 0)` (which fails
the flipped validity check) still holds the sentinels after a full run. -/
theorem claimC10_invalid_cells_untouched_witness :
    Explorer.explore E4 img4open 4 4 20 =
      Except.ok (stateOf (Explorer.explore E4 img4open 4 4 20)) ∧
    ¬((0 : ℤ) = E4.start_node.1 ∧ (0 : ℤ) = E4.start_node.2) ∧
    check_node_validity img4open 4 4 0 (4 - 0) = false ∧
    (stateOf (Explorer.explore E4 img4open 4 4 20)).parent 0 0 = NO_PARENT ∧
    (stateOf (Explorer.explore E4 img4open 4 4 20)).base_cost 0 0 = NO_COST :=
  ⟨rfl, by decide, by decide,
    (claimC10_invalid_cells_untouched E4 img4open 4 4 20
      (stateOf (Explorer.explore E4 img4open 4 4 20)) rfl 0 0 (by decide)
      (by decide)).1,
    (claimC10_invalid_cells_untouched E4 img4open 4 4 20
      (stateOf (Explorer.explore E4 img4open 4 4 20)) rfl 0 0 (by decide)
      (by decide)).2⟩

/-- C8 (amended): after `explore` completes, the exploration log
`generated_nodes` contains exactly the coordinates passed to `queue.put`
(the start node followed by every newly discovered child), in push order —
a coordinate is appended to the log when it is pushed, not when it is
popped. -/
theorem claimC8_log_is_push_order (E : Explorer) (img : Img) (H W : ℤ)
    (fuel : ℕ) (s' : ExpState) (h : E.explore img H W fuel = Except.ok s') :
    s'.generated_nodes = s'.pushed := by
  unfold Explorer.explore at h
  cases hs : E.seed with
  | error e =>
    rw [hs] at h
    exact Except.noConfusion h
  | ok s0 =>
    rw [hs] at h
    obtain ⟨pr, hg, rfl⟩ := seed_elim hs
    refine exploreLoop_pres (fun t => t.generated_nodes = t.pushed)
      (fun t q pp ee hPt => hPt) ?_ fuel _ s' h rfl
    intro cur t i t' hPt hok
    rcases processMove_elim hok with rfl | ⟨hc, hpar, pr2, pv, hrv, hg2, rfl⟩
    · exact hPt
    · show t.generated_nodes ++ [take_action i cur] =
        t.pushed ++ [take_action i cur]
      rw [hPt]

/-- C8 (counterexample): on the open 4×4 map with start `(1, 1)` and goal
`(1, 2)`, the log `generated_nodes` is `[(1,1),(2,1),(1,2),(2,2)]` while the
popped-and-expanded coordinates are just `[(1,1)]` (and the popped
coordinates are `[(1,1),(1,2)]`) — so the log is not the popped-and-expanded
sequence: it holds discovered nodes, recorded at push time. -/
theorem claimC8_counterexample :
    Explorer.explore E4 img4open 4 4 20 =
      Except.ok (stateOf (Explorer.explore E4 img4open 4 4 20)) ∧
    (stateOf (Explorer.explore E4 img4open 4 4 20)).generated_nodes =
      [(1, 1), (2, 1), (1, 2), (2, 2)] ∧
    (stateOf (Explorer.explore E4 img4open 4 4 20)).expanded = [(1, 1)] ∧
    (stateOf (Explorer.explore E4 img4open 4 4 20)).popped =
      [(1, 1), (1, 2)] ∧
    (stateOf (Explorer.explore E4 img4open 4 4 20)).generated_nodes ≠
      (stateOf (Explorer.explore E4 img4open 4 4 20)).expanded ∧
    (stateOf (Explorer.explore E4 img4open 4 4 20)).generated_nodes ≠
      (stateOf (Explorer.explore E4 img4open 4 4 20)).popped :=
  ⟨rfl, by decide, by decide, by decide, by decide, by decide⟩

/-- C8 witness: the amended statement on a concrete completed run. -/
theorem claimC8_log_is_push_order_witness :
    Explorer.explore E4 img4open 4 4 20 =
      Except.ok (stateOf (Explorer.explore E4 img4open 4 4 20)) ∧
    (stateOf (Explorer.explore E4 img4open 4 4 20)).generated_nodes =
      (stateOf (Explorer.explore E4 img4open 4 4 20)).pushed :=
  ⟨rfl, claimC8_log_is_push_order E4 img4open 4 4 20
    (stateOf (Explorer.explore E4 img4open 4 4 20)) rfl⟩

theorem popMin_mem : ∀ (l : List (Prio × Coord)) (e : Prio × Coord)
    (rest : List (Prio × Coord)), popMin l = some (e, rest) →
    e ∈ l ∧ ∀ e2 ∈ rest, e2 ∈ l := by
  intro l
  induction l with
  | nil =>
    intro e rest h
    exact Option.noConfusion h
  | cons a as ih =>
    intro e rest h
    unfold popMin at h
    cases hpm : popMin as with
    | none =>
      rw [hpm] at h
      have h2 : (some ((a, [])) :
          Option ((Prio × Coord) × List (Prio × Coord))) = some (e, rest) := h
      injection h2 with h3
      injection h3 with h4 h5
      subst h4
      subst h5
      exact ⟨List.mem_cons_self _ _, by intro e2 he2; cases he2⟩
    | some mr =>
      obtain ⟨me, r2⟩ := mr
      rw [hpm] at h
      obtain ⟨hme, hr2⟩ := ih me r2 hpm
      have h2 : (if entryLT me a then some ((me, a :: r2)) else some ((a, as)) :
          Option ((Prio × Coord) × List (Prio × Coord))) = some (e, rest) := h
      by_cases hlt : entryLT me a = true
      · rw [if_pos hlt] at h2
        injection h2 with h3
        injection h3 with h4 h5
        subst h4
        subst h5
        refine ⟨List.mem_cons_of_mem a hme, ?_⟩
        intro e2 he2
        rcases List.mem_cons.mp he2 with rfl | he3
        · exact List.mem_cons_self _ _
        · exact List.mem_cons_of_mem a (hr2 e2 he3)
      · rw [if_neg hlt] at h2
        injection h2 with h3
        injection h3 with h4 h5
        subst h4
        subst h5
        exact ⟨List.mem_cons_self _ _, fun e2 he2 => List.mem_cons_of_mem a he2⟩

theorem check_imp_inBounds {img : Img} {H W y x : ℤ}
    (h : check_node_validity img H W x (H - y) = true) :
    inBounds H W (y, x) := by
  unfold check_node_validity at h
  by_cases h1 : x ≤ 0 ∨ W ≤ x ∨ H - y ≤ 0 ∨ H ≤ H - y
  · rw [if_pos h1] at h
    exact Bool.noConfusion h
  · push_neg at h1
    obtain ⟨a1, a2, a3, a4⟩ := h1
    exact ⟨by omega, by omega, by omega, by omega⟩

theorem processMove_ok_d (ctx : Ctx) (cur : Coord) (hm : ctx.method = 'd')
    (hb : inBounds ctx.H ctx.W cur) (t : ExpState) (i : ℕ)
    (hQ : ∀ e ∈ t.node_queue, inBounds ctx.H ctx.W e.2) :
    ∃ t', processMove ctx cur t i = Except.ok t' ∧
      ∀ e ∈ t'.node_queue, inBounds ctx.H ctx.W e.2 := by
  by_cases hcond : check_node_validity ctx.img ctx.H ctx.W
      (take_action i cur).2 (ctx.H - (take_action i cur).1) = true ∧
      t.parent (take_action i cur).1 (take_action i cur).2 = NO_PARENT
  · have hg : get_final_weight ctx.goal ctx.method (take_action i cur)
        (Z2.add (t.base_cost cur.1 cur.2)
          (if i < 4 then (⟨1, 0⟩ : Z2) else ⟨0, 1⟩)) =
        Except.ok ⟨Z2.add (t.base_cost cur.1 cur.2)
          (if i < 4 then (⟨1, 0⟩ : Z2) else ⟨0, 1⟩), 0⟩ := by
      rw [hm]
      rfl
    have hb2 : 0 ≤ cur.1 ∧ cur.1 < ctx.H ∧ 0 ≤ cur.2 ∧ cur.2 < ctx.W := hb
    have hrv : ravel_multi_index ctx.H ctx.W cur =
        some (cur.1 * ctx.W + cur.2) := by
      unfold ravel_multi_index
      rw [if_pos hb2]
    refine ⟨{ t with
              base_cost := upd t.base_cost (take_action i cur).1
                (take_action i cur).2
                (Z2.add (t.base_cost cur.1 cur.2)
                  (if i < 4 then (⟨1, 0⟩ : Z2) else ⟨0, 1⟩))
              node_queue := t.node_queue ++
                [(⟨Z2.add (t.base_cost cur.1 cur.2)
                    (if i < 4 then (⟨1, 0⟩ : Z2) else ⟨0, 1⟩), 0⟩,
                  take_action i cur)]
              generated_nodes := t.generated_nodes ++ [take_action i cur]
              pushed := t.pushed ++ [take_action i cur]
              parent := upd t.parent (take_action i cur).1
                (take_action i cur).2 (cur.1 * ctx.W + cur.2) }, ?_, ?_⟩
    · simp only [processMove]
      rw [if_pos hcond, hg, hrv]
    · intro e he
      rcases List.mem_append.mp he with he1 | he2
      · exact hQ e he1
      · rw [List.mem_singleton] at he2
        rw [he2]
        exact check_imp_inBounds hcond.1
  · refine ⟨t, ?_, hQ⟩
    simp only [processMove]
    rw [if_neg hcond]

theorem foldlM_ok_d (ctx : Ctx) (cur : Coord) (hm : ctx.method = 'd')
    (hb : inBounds ctx.H ctx.W cur) (l : List ℕ) :
    ∀ t, (∀ e ∈ t.node_queue, inBounds ctx.H ctx.W e.2) →
      ∃ t', List.foldlM (processMove ctx cur) t l = Except.ok t' ∧
        ∀ e ∈ t'.node_queue, inBounds ctx.H ctx.W e.2 := by
  induction l with
  | nil =>
    intro t hQ
    exact ⟨t, rfl, hQ⟩
  | cons i l ih =>
    intro t hQ
    obtain ⟨t1, h1, hQ1⟩ := processMove_ok_d ctx cur hm hb t i hQ
    obtain ⟨t', h2, hQ2⟩ := ih t1 hQ1
    refine ⟨t', ?_, hQ2⟩
    rw [List.foldlM_cons, h1]
    exact h2

theorem exploreStep_ok_d (ctx : Ctx) (hm : ctx.method = 'd') (s : ExpState)
    (hQ : ∀ e ∈ s.node_queue, inBounds ctx.H ctx.W e.2) :
    ∃ r, exploreStep ctx s = Except.ok r ∧
      ∀ e ∈ (stepRes r).node_queue, inBounds ctx.H ctx.W e.2 := by
  cases hq : popMin s.node_queue with
  | none =>
    refine ⟨Sum.inr s, ?_, hQ⟩
    unfold exploreStep
    rw [hq]
  | some er =>
    obtain ⟨e, rest⟩ := er
    obtain ⟨hel, hsub⟩ := popMin_mem _ _ _ hq
    have hrestQ : ∀ e2 ∈ rest, inBounds ctx.H ctx.W e2.2 :=
      fun e2 he2 => hQ e2 (hsub e2 he2)
    by_cases hgl : e.2 = ctx.goal
    · refine ⟨Sum.inr { s with
                        node_queue := rest,
                        popped := s.popped ++ [e.2] }, ?_, hrestQ⟩
      unfold exploreStep
      rw [hq]
      show (if e.2 = ctx.goal then
            (Except.ok (Sum.inr { s with
                                  node_queue := rest,
                                  popped := s.popped ++ [e.2] }) :
              Except Err (ExpState ⊕ ExpState))
          else
            Except.map Sum.inl ((List.range MAX_ACTIONS).foldlM
              (processMove ctx e.2)
              { s with
                node_queue := rest, popped := s.popped ++ [e.2],
                expanded := s.expanded ++ [e.2] })) =
          Except.ok (Sum.inr { s with
                               node_queue := rest,
                               popped := s.popped ++ [e.2] })
      rw [if_pos hgl]
    · have hbe : inBounds ctx.H ctx.W e.2 := hQ e hel
      obtain ⟨s3, hf, hQ3⟩ := foldlM_ok_d ctx e.2 hm hbe
        (List.range MAX_ACTIONS)
        { s with
          node_queue := rest, popped := s.popped ++ [e.2],
          expanded := s.expanded ++ [e.2] } hrestQ
      refine ⟨Sum.inl s3, ?_, hQ3⟩
      unfold exploreStep
      rw [hq]
      show (if e.2 = ctx.goal then
            (Except.ok (Sum.inr { s with
                                  node_queue := rest,
                                  popped := s.popped ++ [e.2] }) :
              Except Err (ExpState ⊕ ExpState))
          else
            Except.map Sum.inl ((List.range MAX_ACTIONS).foldlM
              (processMove ctx e.2)
              { s with
                node_queue := rest, popped := s.popped ++ [e.2],
                expanded := s.expanded ++ [e.2] })) =
          Except.ok (Sum.inl s3)
      rw [if_neg hgl, hf]
      rfl

theorem exploreLoop_ok_d (ctx : Ctx) (hm : ctx.method = 'd') :
    ∀ (fuel : ℕ) (s : ExpState),
      (∀ e ∈ s.node_queue, inBounds ctx.H ctx.W e.2) →
      ∃ s', exploreLoop ctx fuel s = Except.ok s' := by
  intro fuel
  induction fuel with
  | zero =>
    intro s _
    exact ⟨s, rfl⟩
  | succ f ih =>
    intro s hQ
    obtain ⟨r, hst, hQ2⟩ := exploreStep_ok_d ctx hm s hQ
    cases r with
    | inr sf =>
      refine ⟨sf, ?_⟩
      unfold exploreLoop
      rw [hst]
    | inl s1 =>
      obtain ⟨s', hl⟩ := ih s1 hQ2
      refine ⟨s', ?_⟩
      unfold exploreLoop
      rw [hst]
      exact hl

/-- C3 (amended): the code performs no endpoint validation at all — there is
no `InvalidEndpoint` failure, and `explore` unconditionally seeds the start
cell (cost `0`, parent `START_PARENT`) whether or not the start or goal is
traversable; for any in-range start those seeded values survive the whole
run.  In particular an occupied start or goal is searched normally instead
of being rejected. -/
theorem claimC3_no_endpoint_validation (E : Explorer) (img : Img) (H W : ℤ)
    (fuel : ℕ) (hm : E.method = 'd') (hb : inBounds H W E.start_node) :
    ∃ s', E.explore img H W fuel = Except.ok s' ∧
      s'.parent E.start_node.1 E.start_node.2 = START_PARENT ∧
      s'.base_cost E.start_node.1 E.start_node.2 = ⟨0, 0⟩ := by
  have hg : get_final_weight E.goal_node E.method E.start_node ⟨0, 0⟩ =
      Except.ok ⟨⟨0, 0⟩, 0⟩ := by
    rw [hm]
    rfl
  obtain ⟨s0, hs⟩ : ∃ s0, E.seed = Except.ok s0 := by
    unfold Explorer.seed
    rw [hg]
    exact ⟨_, rfl⟩
  obtain ⟨pr, hgw, hs0⟩ := seed_elim hs
  subst hs0
  have hQ : ∀ e ∈ [(pr, E.start_node)], inBounds H W e.2 := by
    intro e he
    rw [List.mem_singleton] at he
    rw [he]
    exact hb
  obtain ⟨s', hl⟩ := exploreLoop_ok_d ⟨img, H, W, E.goal_node, E.method⟩ hm
    fuel
    { base_cost := upd (fun _ _ => NO_COST) E.start_node.1 E.start_node.2 ⟨0, 0⟩
      parent :=
        upd (fun _ _ => NO_PARENT) E.start_node.1 E.start_node.2 START_PARENT
      generated_nodes := [E.start_node]
      node_queue := [(pr, E.start_node)]
      popped := []
      expanded := []
      pushed := [E.start_node] } hQ
  have hstart : (upd (fun _ _ => NO_PARENT) E.start_node.1 E.start_node.2
      START_PARENT) E.start_node.1 E.start_node.2 = START_PARENT :=
    upd_self _ _ _ _
  have hcost0 : (upd (fun _ _ => NO_COST) E.start_node.1 E.start_node.2
      (⟨0, 0⟩ : Z2)) E.start_node.1 E.start_node.2 = (⟨0, 0⟩ : Z2) :=
    upd_self _ _ _ _
  have hne : (upd (fun _ _ => NO_PARENT) E.start_node.1 E.start_node.2
      START_PARENT) E.start_node.1 E.start_node.2 ≠ NO_PARENT := by
    rw [hstart]
    decide
  have hfr := exploreLoop_cell_freeze hl E.start_node.1 E.start_node.2 hne
  refine ⟨s', ?_, hfr.1.trans hstart, hfr.2.trans hcost0⟩
  unfold Explorer.explore
  rw [hs]
  exact hl

/-- C3 (counterexample): on `img3occ` the start node `(1, 1)` of `E3` fails
the traversability check, yet `explore` raises no error and the start cell
of both grids is mutated away from the sentinels (the parent grid holds
`START_PARENT`, the cost grid holds `0`). -/
theorem claimC3_counterexample :
    check_node_validity img3occ 4 4 E3.start_node.2
      (4 - E3.start_node.1) = false ∧
    Explorer.explore E3 img3occ 4 4 20 =
      Except.ok (stateOf (Explorer.explore E3 img3occ 4 4 20)) ∧
    (stateOf (Explorer.explore E3 img3occ 4 4 20)).parent 1 1 =
      START_PARENT ∧
    (stateOf (Explorer.explore E3 img3occ 4 4 20)).base_cost 1 1 = ⟨0, 0⟩ ∧
    START_PARENT ≠ NO_PARENT :=
  ⟨by decide, rfl, by decide, by decide, by decide⟩

/-- C3 witness: the amended statement at the concrete occupied start. -/
theorem claimC3_no_endpoint_validation_witness :
    E3.method = 'd' ∧ inBounds 4 4 E3.start_node ∧
    ∃ s', Explorer.explore E3 img3occ 4 4 20 = Except.ok s' ∧
      s'.parent E3.start_node.1 E3.start_node.2 = START_PARENT ∧
      s'.base_cost E3.start_node.1 E3.start_node.2 = ⟨0, 0⟩ :=
  ⟨rfl, ⟨by decide, by decide, by decide, by decide⟩,
    claimC3_no_endpoint_validation E3 img3occ 4 4 20 rfl
      ⟨by decide, by decide, by decide, by decide⟩⟩

/-- C6: in every iteration of the exploration loop, a candidate move from
the popped node `cur` is skipped (state unchanged) when it is not
traversable or its parent entry is not `NO_PARENT`; otherwise the
candidate cost is set to the popped-node cost plus the step cost (`1`
for the first 4 axis-aligned moves, `√2` — the real value of `Z2.mk 0 1` —
for the 4 diagonal moves), its parent is set to the flattened index of the
popped node, and it is pushed to the queue with the strategy priority
`get_final_weight` for the new cost (and appended to the log). -/
theorem claimC6_expansion_rule (ctx : Ctx) (cur : Coord) (s : ExpState)
    (i : ℕ) (hi : i < MAX_ACTIONS)
    (hm : ctx.method = 'a' ∨ ctx.method = 'b' ∨ ctx.method = 'd')
    (hb : inBounds ctx.H ctx.W cur) (y x : ℤ)
    (hc : take_action i cur = (y, x)) :
    (¬(check_node_validity ctx.img ctx.H ctx.W x (ctx.H - y) = true ∧
        s.parent y x = NO_PARENT) →
      processMove ctx cur s i = Except.ok s) ∧
    (check_node_validity ctx.img ctx.H ctx.W x (ctx.H - y) = true →
      s.parent y x = NO_PARENT →
      ∃ pr, get_final_weight ctx.goal ctx.method (y, x)
          (Z2.add (s.base_cost cur.1 cur.2)
            (if i < 4 then (⟨1, 0⟩ : Z2) else ⟨0, 1⟩)) = Except.ok pr ∧
        processMove ctx cur s i = Except.ok { s with
          base_cost := upd s.base_cost y x
            (Z2.add (s.base_cost cur.1 cur.2)
              (if i < 4 then (⟨1, 0⟩ : Z2) else ⟨0, 1⟩))
          node_queue := s.node_queue ++ [(pr, (y, x))]
          generated_nodes := s.generated_nodes ++ [(y, x)]
          pushed := s.pushed ++ [(y, x)]
          parent := upd s.parent y x (cur.1 * ctx.W + cur.2) }) ∧
    (i < 4 → sq_dist (take_action i cur) cur = 1) ∧
    (4 ≤ i → sq_dist (take_action i cur) cur = 2) ∧
    Z2.toReal ⟨1, 0⟩ = 1 ∧ Z2.toReal ⟨0, 1⟩ = Real.sqrt 2 := by
  refine ⟨?_, ?_, ?_, ?_, ?_, ?_⟩
  · intro hskip
    simp only [processMove]
    rw [hc]
    exact if_neg hskip
  · intro hv hp
    obtain ⟨pr, hg⟩ : ∃ pr, get_final_weight ctx.goal ctx.method (y, x)
        (Z2.add (s.base_cost cur.1 cur.2)
          (if i < 4 then (⟨1, 0⟩ : Z2) else ⟨0, 1⟩)) = Except.ok pr := by
      rcases hm with hm2 | hm2 | hm2 <;> rw [hm2] <;> exact ⟨_, rfl⟩
    have hb2 : 0 ≤ cur.1 ∧ cur.1 < ctx.H ∧ 0 ≤ cur.2 ∧ cur.2 < ctx.W := hb
    have hrv : ravel_multi_index ctx.H ctx.W cur =
        some (cur.1 * ctx.W + cur.2) := by
      unfold ravel_multi_index
      rw [if_pos hb2]
    refine ⟨pr, hg, ?_⟩
    simp only [processMove]
    rw [hc]
    rw [if_pos ⟨hv, hp⟩, hg, hrv]
  · intro h4
    have h8 : i = 0 ∨ i = 1 ∨ i = 2 ∨ i = 3 := by omega
    rcases h8 with rfl | rfl | rfl | rfl <;> simp [sq_dist, take_action]
  · intro h4
    have h8 : i = 4 ∨ i = 5 ∨ i = 6 ∨ i = 7 := by
      have hi8 : i < 8 := hi
      omega
    rcases h8 with rfl | rfl | rfl | rfl <;> simp [sq_dist, take_action]
  · simp [Z2.toReal]
  · simp [Z2.toReal]

/-- C6 witness: the expansion rule instantiated on the open 4×4 map at the
in-range node `(1, 1)` with the first (axis-aligned) move. -/
theorem claimC6_expansion_rule_witness :
    (0 : ℕ) < MAX_ACTIONS ∧ take_action 0 (1, 1) = (2, 1) ∧
    sq_dist (take_action 0 (1, 1)) (1, 1) = 1 :=
  ⟨by decide, rfl,
    (claimC6_expansion_rule ⟨img4open, 4, 4, (1, 2), 'd'⟩ (1, 1) emptyState 0
      (by decide) (Or.inr (Or.inr rfl))
      ⟨by decide, by decide, by decide, by decide⟩ 2 1 rfl).2.2.1
      (by decide)⟩

/-- C9: evaluation of the search at the failing input of the
strategy-comparison claim.  On the 5×5 map `img9` (pixels `(1, 2)` and
`(2, 2)` occupied) with start `(2, 4)` and goal `(4, 1)`, the goal is
reached by both strategies, but the uniform strategy assigns the goal the
accumulated cost `3 + √2` while the heuristic strategy assigns `1 + 3·√2`,
a strictly larger real value — the two reconstructed paths (also shown)
have different total accumulated costs, because the search never relaxes a
rediscovered node, which breaks the optimality of A* here. -/
theorem claimC9_strategy_costs_differ :
    costAt (Explorer.explore E9d img9 5 5 27) 4 1 = some ⟨3, 1⟩ ∧
    costAt (Explorer.explore E9a img9 5 5 27) 4 1 = some ⟨1, 3⟩ ∧
    parentAt (Explorer.explore E9d img9 5 5 27) 4 1 = some 16 ∧
    parentAt (Explorer.explore E9a img9 5 5 27) 4 1 = some 16 ∧
    generate_path (stateOf (Explorer.explore E9d img9 5 5 27)).parent 5 5
      (4, 1) 25 = Except.ok [(4, 1), (3, 1), (2, 2), (2, 3), (2, 4)] ∧
    generate_path (stateOf (Explorer.explore E9a img9 5 5 27)).parent 5 5
      (4, 1) 25 = Except.ok [(4, 1), (3, 1), (2, 2), (3, 3), (2, 4)] ∧
    Z2.toReal ⟨3, 1⟩ < Z2.toReal ⟨1, 3⟩ := by
  refine ⟨by decide, by decide, by decide, by decide, by rfl, by rfl, ?_⟩
  have h2 : (1 : ℝ) < Real.sqrt 2 := by
    have h3 : Real.sqrt 1 < Real.sqrt 2 := by
      apply Real.sqrt_lt_sqrt <;> norm_num
    simpa using h3
  simp only [Z2.toReal]
  push_cast
  nlinarith [h2]

theorem Z2.toReal_add (u v : Z2) : (Z2.add u v).toReal = u.toReal + v.toReal := by
  simp only [Z2.add, Z2.toReal]
  push_cast
  ring

theorem Z2.toReal_sub (u v : Z2) : (Z2.sub u v).toReal = u.toReal - v.toReal := by
  simp only [Z2.sub, Z2.toReal]
  push_cast
  ring

theorem Z2.toReal_sq (u : Z2) : (Z2.sq u).toReal = u.toReal ^ 2 := by
  have hsq : Real.sqrt 2 ^ 2 = 2 := Real.sq_sqrt (by norm_num)
  simp only [Z2.sq, Z2.toReal]
  push_cast
  nlinarith [hsq]

theorem Z2.toReal_scale (u : Z2) (m : ℕ) :
    (Z2.scale u m).toReal = u.toReal * m := by
  simp only [Z2.scale, Z2.toReal]
  push_cast
  ring

theorem int_sq_ne_two_sq {a b : ℤ} (hb : b ≠ 0) : a ^ 2 ≠ 2 * b ^ 2 := by
  intro h
  have hb2 : (b : ℝ) ≠ 0 := Int.cast_ne_zero.mpr hb
  have h1 : ((a : ℝ) / (b : ℝ)) ^ 2 = 2 := by
    have h0 : (a : ℝ) ^ 2 = 2 * (b : ℝ) ^ 2 := by exact_mod_cast h
    field_simp
    linarith [h0]
  have h2 : Real.sqrt 2 = |(a : ℝ) / (b : ℝ)| := by
    rw [← h1, Real.sqrt_sq_eq_abs]
  have h3 : ((|(a : ℚ) / (b : ℚ)| : ℚ) : ℝ) = |(a : ℝ) / (b : ℝ)| := by
    push_cast
    rfl
  have h4 : Irrational (Real.sqrt 2) := irrational_sqrt_two
  rw [h2, ← h3] at h4
  exact Rat.not_irrational _ h4

theorem Z2.sign_correct (u : Z2) :
    (u.sign = 1 → 0 < u.toReal) ∧ (u.sign = 0 → u.toReal = 0) ∧
    (u.sign = -1 → u.toReal < 0) := by
  have hsqrt2 : (0 : ℝ) < Real.sqrt 2 := Real.sqrt_pos.mpr (by norm_num)
  have hsq : Real.sqrt 2 ^ 2 = 2 := Real.sq_sqrt (by norm_num)
  unfold Z2.sign
  split_ifs with h1 h2 h3 h4 h5 h6 h7 h8 <;>
    refine ⟨fun hs => ?_, fun hs => ?_, fun hs => ?_⟩ <;>
    try exact absurd hs (by decide)
  · -- both components zero: value is zero
    simp [Z2.toReal, h1.1, h1.2]
  · -- both components nonnegative, not both zero: positive
    have h0 : 0 < u.a ∨ 0 < u.b := by omega
    have ha : (0 : ℝ) ≤ (u.a : ℝ) := by exact_mod_cast h2.1
    have hb : (0 : ℝ) ≤ (u.b : ℝ) := by exact_mod_cast h2.2
    unfold Z2.toReal
    rcases h0 with h0 | h0
    · have ha2 : (0 : ℝ) < (u.a : ℝ) := by exact_mod_cast h0
      nlinarith [mul_nonneg hb hsqrt2.le]
    · have hb2 : (0 : ℝ) < (u.b : ℝ) := by exact_mod_cast h0
      nlinarith [mul_pos hb2 hsqrt2]
  · -- both components nonpositive, not both zero: negative
    have h0 : u.a < 0 ∨ u.b < 0 := by omega
    have ha : (u.a : ℝ) ≤ 0 := by exact_mod_cast h3.1
    have hb : (u.b : ℝ) ≤ 0 := by exact_mod_cast h3.2
    unfold Z2.toReal
    rcases h0 with h0 | h0
    · have ha2 : (u.a : ℝ) < 0 := by exact_mod_cast h0
      nlinarith [mul_nonpos_of_nonpos_of_nonneg hb hsqrt2.le]
    · have hb2 : (u.b : ℝ) < 0 := by exact_mod_cast h0
      nlinarith [mul_pos (neg_pos.mpr hb2) hsqrt2]
  · -- a positive, b negative, a² beats 2b²: positive
    have hbneg : u.b < 0 := by omega
    have ha : (0 : ℝ) < (u.a : ℝ) := by exact_mod_cast h4
    have h5r : 2 * (u.b : ℝ) ^ 2 < (u.a : ℝ) ^ 2 := by exact_mod_cast h5
    have key : ((-(u.b : ℝ)) * Real.sqrt 2) ^ 2 < (u.a : ℝ) ^ 2 := by
      rw [mul_pow, hsq]
      nlinarith [h5r]
    have hlt : (-(u.b : ℝ)) * Real.sqrt 2 < (u.a : ℝ) :=
      lt_of_pow_lt_pow_left₀ 2 ha.le key
    unfold Z2.toReal
    linarith
  · -- a positive, b negative, 2b² beats a²: negative
    have hbneg : u.b < 0 := by omega
    have ha : (0 : ℝ) < (u.a : ℝ) := by exact_mod_cast h4
    have h6r : (u.a : ℝ) ^ 2 < 2 * (u.b : ℝ) ^ 2 := by exact_mod_cast h6
    have hbp : (0 : ℝ) ≤ (-(u.b : ℝ)) * Real.sqrt 2 := by
      have : (0 : ℝ) < -(u.b : ℝ) := by
        have : (u.b : ℝ) < 0 := by exact_mod_cast hbneg
        linarith
      positivity
    have key : (u.a : ℝ) ^ 2 < ((-(u.b : ℝ)) * Real.sqrt 2) ^ 2 := by
      rw [mul_pow, hsq]
      nlinarith [h6r]
    have hlt : (u.a : ℝ) < (-(u.b : ℝ)) * Real.sqrt 2 :=
      lt_of_pow_lt_pow_left₀ 2 hbp key
    unfold Z2.toReal
    linarith
  · -- a positive, b negative, squares equal: impossible over ℤ
    exact absurd (by omega : u.a ^ 2 = 2 * u.b ^ 2)
      (int_sq_ne_two_sq (by omega))
  · -- a nonpositive, b positive, 2b² beats a²: positive
    have hbpos : 0 < u.b := by omega
    have ha : (u.a : ℝ) ≤ 0 := by
      have : u.a ≤ 0 := by omega
      exact_mod_cast this
    have h7r : (u.a : ℝ) ^ 2 < 2 * (u.b : ℝ) ^ 2 := by exact_mod_cast h7
    have hbp : (0 : ℝ) ≤ (u.b : ℝ) * Real.sqrt 2 := by
      have : (0 : ℝ) < (u.b : ℝ) := by exact_mod_cast hbpos
      positivity
    have key : (-(u.a : ℝ)) ^ 2 < ((u.b : ℝ) * Real.sqrt 2) ^ 2 := by
      rw [mul_pow, hsq]
      nlinarith [h7r]
    have hlt : -(u.a : ℝ) < (u.b : ℝ) * Real.sqrt 2 :=
      lt_of_pow_lt_pow_left₀ 2 hbp key
    unfold Z2.toReal
    linarith
  · -- a nonpositive, b positive, a² beats 2b²: negative
    have hbpos : 0 < u.b := by omega
    have haneg : u.a < 0 := by nlinarith [h8, sq_nonneg u.a, sq_nonneg u.b]
    have ha : (u.a : ℝ) < 0 := by exact_mod_cast haneg
    have h8r : 2 * (u.b : ℝ) ^ 2 < (u.a : ℝ) ^ 2 := by exact_mod_cast h8
    have key : ((u.b : ℝ) * Real.sqrt 2) ^ 2 < (-(u.a : ℝ)) ^ 2 := by
      rw [mul_pow, hsq]
      nlinarith [h8r]
    have hlt : (u.b : ℝ) * Real.sqrt 2 < -(u.a : ℝ) :=
      lt_of_pow_lt_pow_left₀ 2 (by linarith) key
    unfold Z2.toReal
    linarith
  · -- a nonpositive, b positive, squares equal: impossible over ℤ
    exact absurd (by omega : u.a ^ 2 = 2 * u.b ^ 2)
      (int_sq_ne_two_sq (by omega))

theorem Z2.sign_vals (u : Z2) : u.sign = 1 ∨ u.sign = 0 ∨ u.sign = -1 := by
  unfold Z2.sign
  split_ifs <;> simp

theorem signQ_correct (A B : Z2) (m : ℕ) :
    (signQ A B m = 1 → 0 < A.toReal + B.toReal * Real.sqrt m) ∧
    (signQ A B m = 0 → A.toReal + B.toReal * Real.sqrt m = 0) ∧
    (signQ A B m = -1 → A.toReal + B.toReal * Real.sqrt m < 0) := by
  obtain ⟨c1, c0, cm⟩ := Z2.sign_correct A
  obtain ⟨d1, d0, dm⟩ := Z2.sign_correct B
  by_cases hm : m = 0
  · subst hm
    have hq : signQ A B 0 = A.sign := by simp [signQ]
    rw [hq]
    simp only [Nat.cast_zero, Real.sqrt_zero, mul_zero, add_zero]
    exact ⟨c1, c0, cm⟩
  · have hm1 : (0 : ℝ) < (m : ℝ) := by
      have := Nat.pos_of_ne_zero hm
      exact_mod_cast this
    have hsm : 0 < Real.sqrt m := Real.sqrt_pos.mpr hm1
    have hsqm : Real.sqrt m ^ 2 = (m : ℝ) := Real.sq_sqrt hm1.le
    obtain ⟨e1, e0, em⟩ := Z2.sign_correct (Z2.sub A.sq (B.sq.scale m))
    have hdval : (Z2.sub A.sq (B.sq.scale m)).toReal =
        A.toReal ^ 2 - B.toReal ^ 2 * m := by
      rw [Z2.toReal_sub, Z2.toReal_sq, Z2.toReal_scale, Z2.toReal_sq]
    have hBm2 : (B.toReal * Real.sqrt m) ^ 2 = B.toReal ^ 2 * m := by
      rw [mul_pow, hsqm]
    have hBm2n : ((-B.toReal) * Real.sqrt m) ^ 2 = B.toReal ^ 2 * m := by
      rw [mul_pow, hsqm]
      ring
    rcases Z2.sign_vals B with hB | hB | hB
    · -- B positive
      have hBpos : 0 < B.toReal := d1 hB
      have hterm : 0 < B.toReal * Real.sqrt m := mul_pos hBpos hsm
      rcases Z2.sign_vals A with hA | hA | hA
      · have hval : signQ A B m = 1 := by simp [signQ, hm, hA, hB]
        refine ⟨fun hs => ?_, fun hs => ?_, fun hs => ?_⟩ <;>
          rw [hval] at hs <;> try exact absurd hs (by decide)
        linarith [c1 hA, hterm]
      · have hval : signQ A B m = 1 := by simp [signQ, hm, hA, hB]
        refine ⟨fun hs => ?_, fun hs => ?_, fun hs => ?_⟩ <;>
          rw [hval] at hs <;> try exact absurd hs (by decide)
        linarith [c0 hA, hterm]
      · rcases Z2.sign_vals (Z2.sub A.sq (B.sq.scale m)) with hd | hd | hd
        · have hval : signQ A B m = -1 := by simp [signQ, hm, hA, hB, hd]
          refine ⟨fun hs => ?_, fun hs => ?_, fun hs => ?_⟩ <;>
            rw [hval] at hs <;> try exact absurd hs (by decide)
          have he := e1 hd
          rw [hdval] at he
          have hA2 : (0 : ℝ) < -A.toReal := by linarith [cm hA]
          have key : (B.toReal * Real.sqrt m) ^ 2 < (-A.toReal) ^ 2 := by
            rw [hBm2]
            nlinarith [he]
          have hlt := lt_of_pow_lt_pow_left₀ 2 hA2.le key
          linarith
        · have hval : signQ A B m = 0 := by simp [signQ, hm, hA, hB, hd]
          refine ⟨fun hs => ?_, fun hs => ?_, fun hs => ?_⟩ <;>
            rw [hval] at hs <;> try exact absurd hs (by decide)
          have he := e0 hd
          rw [hdval] at he
          have h2 : (B.toReal * Real.sqrt m) ^ 2 = (-A.toReal) ^ 2 := by
            rw [hBm2]
            linear_combination -he
          have hsum : B.toReal * Real.sqrt m = -A.toReal := by
            calc B.toReal * Real.sqrt m
                = Real.sqrt ((B.toReal * Real.sqrt m) ^ 2) :=
                  (Real.sqrt_sq hterm.le).symm
              _ = Real.sqrt ((-A.toReal) ^ 2) := by rw [h2]
              _ = -A.toReal := Real.sqrt_sq (by linarith [cm hA])
          linarith [hsum]
        · have hval : signQ A B m = 1 := by simp [signQ, hm, hA, hB, hd]
          refine ⟨fun hs => ?_, fun hs => ?_, fun hs => ?_⟩ <;>
            rw [hval] at hs <;> try exact absurd hs (by decide)
          have he := em hd
          rw [hdval] at he
          have key : (-A.toReal) ^ 2 < (B.toReal * Real.sqrt m) ^ 2 := by
            rw [hBm2]
            nlinarith [he]
          have hlt := lt_of_pow_lt_pow_left₀ 2
            (mul_nonneg hBpos.le (Real.sqrt_nonneg _)) key
          linarith
    · -- B zero
      have hq : signQ A B m = A.sign := by simp [signQ, hm, hB]
      rw [hq, d0 hB]
      simp only [zero_mul, add_zero]
      exact ⟨c1, c0, cm⟩
    · -- B negative
      have hBneg : B.toReal < 0 := dm hB
      have hterm : B.toReal * Real.sqrt m < 0 := mul_neg_of_neg_of_pos hBneg hsm
      have hflip : (-B.toReal) * Real.sqrt m = -(B.toReal * Real.sqrt m) := by
        ring
      rcases Z2.sign_vals A with hA | hA | hA
      · rcases Z2.sign_vals (Z2.sub A.sq (B.sq.scale m)) with hd | hd | hd
        · have hval : signQ A B m = 1 := by simp [signQ, hm, hA, hB, hd]
          refine ⟨fun hs => ?_, fun hs => ?_, fun hs => ?_⟩ <;>
            rw [hval] at hs <;> try exact absurd hs (by decide)
          have he := e1 hd
          rw [hdval] at he
          have key : ((-B.toReal) * Real.sqrt m) ^ 2 < A.toReal ^ 2 := by
            rw [hBm2n]
            nlinarith [he]
          have hlt := lt_of_pow_lt_pow_left₀ 2 (c1 hA).le key
          linarith [hflip]
        · have hval : signQ A B m = 0 := by simp [signQ, hm, hA, hB, hd]
          refine ⟨fun hs => ?_, fun hs => ?_, fun hs => ?_⟩ <;>
            rw [hval] at hs <;> try exact absurd hs (by decide)
          have he := e0 hd
          rw [hdval] at he
          have hnn : (0 : ℝ) ≤ (-B.toReal) * Real.sqrt m :=
            mul_nonneg (by linarith) (Real.sqrt_nonneg _)
          have h2 : ((-B.toReal) * Real.sqrt m) ^ 2 = A.toReal ^ 2 := by
            rw [hBm2n]
            linear_combination -he
          have hsum : (-B.toReal) * Real.sqrt m = A.toReal := by
            calc (-B.toReal) * Real.sqrt m
                = Real.sqrt (((-B.toReal) * Real.sqrt m) ^ 2) :=
                  (Real.sqrt_sq hnn).symm
              _ = Real.sqrt (A.toReal ^ 2) := by rw [h2]
              _ = A.toReal := Real.sqrt_sq (c1 hA).le
          linarith [hsum, hflip]
        · have hval : signQ A B m = -1 := by simp [signQ, hm, hA, hB, hd]
          refine ⟨fun hs => ?_, fun hs => ?_, fun hs => ?_⟩ <;>
            rw [hval] at hs <;> try exact absurd hs (by decide)
          have he := em hd
          rw [hdval] at he
          have hnn : (0 : ℝ) ≤ (-B.toReal) * Real.sqrt m :=
            mul_nonneg (by linarith) (Real.sqrt_nonneg _)
          have key : A.toReal ^ 2 < ((-B.toReal) * Real.sqrt m) ^ 2 := by
            rw [hBm2n]
            nlinarith [he]
          have hlt := lt_of_pow_lt_pow_left₀ 2 hnn key
          linarith [hflip]
      · have hval : signQ A B m = -1 := by simp [signQ, hm, hA, hB]
        refine ⟨fun hs => ?_, fun hs => ?_, fun hs => ?_⟩ <;>
          rw [hval] at hs <;> try exact absurd hs (by decide)
        linarith [c0 hA, hterm]
      · have hval : signQ A B m = -1 := by simp [signQ, hm, hA, hB]
        refine ⟨fun hs => ?_, fun hs => ?_, fun hs => ?_⟩ <;>
          rw [hval] at hs <;> try exact absurd hs (by decide)
        linarith [cm hA, hterm]

theorem signQ_vals (A B : Z2) (m : ℕ) :
    signQ A B m = 1 ∨ signQ A B m = 0 ∨ signQ A B m = -1 := by
  by_cases hm : m = 0
  · subst hm
    have hq : signQ A B 0 = A.sign := by simp [signQ]
    rw [hq]
    exact Z2.sign_vals A
  · rcases Z2.sign_vals B with hB | hB | hB <;>
      rcases Z2.sign_vals A with hA | hA | hA <;>
      rcases Z2.sign_vals (Z2.sub A.sq (B.sq.scale m)) with hd | hd | hd <;>
      simp [signQ, hm, hA, hB, hd]

theorem prioSign_correct (p1 p2 : Prio) :
    (prioSign p1 p2 = 1 → p2.toReal < p1.toReal) ∧
    (prioSign p1 p2 = 0 → p1.toReal = p2.toReal) ∧
    (prioSign p1 p2 = -1 → p1.toReal < p2.toReal) := by
  obtain ⟨L1, L0, Lm⟩ := signQ_correct (Z2.sub p1.g p2.g) ⟨1, 0⟩ p1.m
  have honeR : (⟨1, 0⟩ : Z2).toReal = 1 := by simp [Z2.toReal]
  have hid : p1.toReal - p2.toReal =
      ((Z2.sub p1.g p2.g).toReal + Real.sqrt p1.m) - Real.sqrt p2.m := by
    simp only [Prio.toReal, Z2.toReal_sub]
    ring
  have hs2 : (0 : ℝ) ≤ Real.sqrt p2.m := Real.sqrt_nonneg _
  have hm1sq : Real.sqrt p1.m ^ 2 = (p1.m : ℝ) :=
    Real.sq_sqrt (Nat.cast_nonneg _)
  have hm2sq : Real.sqrt p2.m ^ 2 = (p2.m : ℝ) :=
    Real.sq_sqrt (Nat.cast_nonneg _)
  rcases signQ_vals (Z2.sub p1.g p2.g) ⟨1, 0⟩ p1.m with hL | hL | hL
  · -- g1 - g2 + √m1 is positive: compare its square with m2
    have hLpos : 0 < (Z2.sub p1.g p2.g).toReal + Real.sqrt p1.m := by
      have h := L1 hL
      rw [honeR] at h
      linarith
    have hcond : prioSign p1 p2 =
        signQ (Z2.sub (Z2.add (Z2.sub p1.g p2.g).sq ⟨(p1.m : ℤ), 0⟩)
            ⟨(p2.m : ℤ), 0⟩)
          (Z2.add (Z2.sub p1.g p2.g) (Z2.sub p1.g p2.g)) p1.m := by
      simp [prioSign, hL]
    obtain ⟨F1, F0, Fm⟩ := signQ_correct
      (Z2.sub (Z2.add (Z2.sub p1.g p2.g).sq ⟨(p1.m : ℤ), 0⟩) ⟨(p2.m : ℤ), 0⟩)
      (Z2.add (Z2.sub p1.g p2.g) (Z2.sub p1.g p2.g)) p1.m
    have hAval : (Z2.sub (Z2.add (Z2.sub p1.g p2.g).sq ⟨(p1.m : ℤ), 0⟩)
        ⟨(p2.m : ℤ), 0⟩).toReal =
        (Z2.sub p1.g p2.g).toReal ^ 2 + (p1.m : ℝ) - (p2.m : ℝ) := by
      rw [Z2.toReal_sub, Z2.toReal_add, Z2.toReal_sq]
      simp [Z2.toReal]
    have hBval : (Z2.add (Z2.sub p1.g p2.g) (Z2.sub p1.g p2.g)).toReal =
        2 * (Z2.sub p1.g p2.g).toReal := by
      rw [Z2.toReal_add]
      ring
    have hkey : (Z2.sub (Z2.add (Z2.sub p1.g p2.g).sq ⟨(p1.m : ℤ), 0⟩)
          ⟨(p2.m : ℤ), 0⟩).toReal +
        (Z2.add (Z2.sub p1.g p2.g) (Z2.sub p1.g p2.g)).toReal *
          Real.sqrt p1.m =
        ((Z2.sub p1.g p2.g).toReal + Real.sqrt p1.m) ^ 2 - (p2.m : ℝ) := by
      rw [hAval, hBval]
      linear_combination -hm1sq
    refine ⟨fun hs => ?_, fun hs => ?_, fun hs => ?_⟩ <;> rw [hcond] at hs
    · have h := F1 hs
      rw [hkey] at h
      have hsq : Real.sqrt p2.m ^ 2 <
          ((Z2.sub p1.g p2.g).toReal + Real.sqrt p1.m) ^ 2 := by
        rw [hm2sq]
        linarith
      have hlt := lt_of_pow_lt_pow_left₀ 2 hLpos.le hsq
      linarith [hid]
    · have h := F0 hs
      rw [hkey] at h
      have hsq : ((Z2.sub p1.g p2.g).toReal + Real.sqrt p1.m) ^ 2 =
          Real.sqrt p2.m ^ 2 := by
        rw [hm2sq]
        linarith
      have heq : (Z2.sub p1.g p2.g).toReal + Real.sqrt p1.m =
          Real.sqrt p2.m := by
        calc (Z2.sub p1.g p2.g).toReal + Real.sqrt p1.m
            = Real.sqrt (((Z2.sub p1.g p2.g).toReal + Real.sqrt p1.m) ^ 2) :=
              (Real.sqrt_sq hLpos.le).symm
          _ = Real.sqrt (Real.sqrt p2.m ^ 2) := by rw [hsq]
          _ = Real.sqrt p2.m := Real.sqrt_sq hs2
      linarith [hid]
    · have h := Fm hs
      rw [hkey] at h
      have hsq : ((Z2.sub p1.g p2.g).toReal + Real.sqrt p1.m) ^ 2 <
          Real.sqrt p2.m ^ 2 := by
        rw [hm2sq]
        linarith
      have hlt := lt_of_pow_lt_pow_left₀ 2 hs2 hsq
      linarith [hid]
  · -- g1 - g2 + √m1 is zero: the difference is -√m2
    have hLzero : (Z2.sub p1.g p2.g).toReal + Real.sqrt p1.m = 0 := by
      have h := L0 hL
      rw [honeR] at h
      linarith
    by_cases hm2 : p2.m = 0
    · have hcond : prioSign p1 p2 = 0 := by simp [prioSign, hL, hm2]
      refine ⟨fun hs => ?_, fun hs => ?_, fun hs => ?_⟩ <;> rw [hcond] at hs <;>
        try exact absurd hs (by decide)
      have hz : Real.sqrt p2.m = 0 := by
        rw [hm2]
        simp
      linarith [hid]
    · have hcond : prioSign p1 p2 = -1 := by simp [prioSign, hL, hm2]
      refine ⟨fun hs => ?_, fun hs => ?_, fun hs => ?_⟩ <;> rw [hcond] at hs <;>
        try exact absurd hs (by decide)
      have hpos : 0 < Real.sqrt p2.m := Real.sqrt_pos.mpr (by
        have := Nat.pos_of_ne_zero hm2
        exact_mod_cast this)
      linarith [hid]
  · -- g1 - g2 + √m1 is negative: the difference is negative
    have hcond : prioSign p1 p2 = -1 := by simp [prioSign, hL]
    have hLneg : (Z2.sub p1.g p2.g).toReal + Real.sqrt p1.m < 0 := by
      have h := Lm hL
      rw [honeR] at h
      linarith
    refine ⟨fun hs => ?_, fun hs => ?_, fun hs => ?_⟩ <;> rw [hcond] at hs <;>
      try exact absurd hs (by decide)
    linarith [hid]

theorem prioSign_vals (p1 p2 : Prio) :
    prioSign p1 p2 = 1 ∨ prioSign p1 p2 = 0 ∨ prioSign p1 p2 = -1 := by
  rcases signQ_vals (Z2.sub p1.g p2.g) ⟨1, 0⟩ p1.m with hL | hL | hL
  · have hq : prioSign p1 p2 =
        signQ (Z2.sub (Z2.add (Z2.sub p1.g p2.g).sq ⟨(p1.m : ℤ), 0⟩)
            ⟨(p2.m : ℤ), 0⟩)
          (Z2.add (Z2.sub p1.g p2.g) (Z2.sub p1.g p2.g)) p1.m := by
      simp [prioSign, hL]
    rw [hq]
    exact signQ_vals _ _ _
  · by_cases hm2 : p2.m = 0 <;> simp [prioSign, hL, hm2]
  · simp [prioSign, hL]

theorem prioSign_eq_one_iff (p1 p2 : Prio) :
    prioSign p1 p2 = 1 ↔ p2.toReal < p1.toReal := by
  obtain ⟨h1, h0, hm⟩ := prioSign_correct p1 p2
  refine ⟨h1, fun hlt => ?_⟩
  rcases prioSign_vals p1 p2 with h | h | h
  · exact h
  · exact absurd (h0 h) (by linarith)
  · exact absurd (hm h) (by linarith)

theorem prioSign_eq_zero_iff (p1 p2 : Prio) :
    prioSign p1 p2 = 0 ↔ p1.toReal = p2.toReal := by
  obtain ⟨h1, h0, hm⟩ := prioSign_correct p1 p2
  refine ⟨h0, fun heq => ?_⟩
  rcases prioSign_vals p1 p2 with h | h | h
  · exact absurd (h1 h) (by linarith)
  · exact h
  · exact absurd (hm h) (by linarith)

theorem prioSign_eq_negone_iff (p1 p2 : Prio) :
    prioSign p1 p2 = -1 ↔ p1.toReal < p2.toReal := by
  obtain ⟨h1, h0, hm⟩ := prioSign_correct p1 p2
  refine ⟨hm, fun hlt => ?_⟩
  rcases prioSign_vals p1 p2 with h | h | h
  · exact absurd (h1 h) (by linarith)
  · exact absurd (h0 h) (by linarith)
  · exact h

theorem entryLT_iff (e1 e2 : Prio × Coord) :
    entryLT e1 e2 = true ↔
      (e1.1.toReal < e2.1.toReal ∨
        (e1.1.toReal = e2.1.toReal ∧
          (e1.2.1 < e2.2.1 ∨ (e1.2.1 = e2.2.1 ∧ e1.2.2 < e2.2.2)))) := by
  rcases prioSign_vals e1.1 e2.1 with hs | hs | hs
  · have hval : entryLT e1 e2 = false := by simp [entryLT, hs]
    have hgt := (prioSign_eq_one_iff e1.1 e2.1).mp hs
    rw [hval]
    constructor
    · intro hff
      exact absurd hff (by decide)
    · rintro (hlt | ⟨heq, _⟩) <;> exact absurd hgt (by linarith)
  · have heq := (prioSign_eq_zero_iff e1.1 e2.1).mp hs
    have hval : entryLT e1 e2 = coordLT e1.2 e2.2 := by simp [entryLT, hs]
    rw [hval]
    unfold coordLT
    split_ifs with hy hy2
    · constructor
      · intro _
        exact Or.inr ⟨heq, Or.inl hy⟩
      · intro _
        rfl
    · simp only [decide_eq_true_eq]
      constructor
      · intro hx
        exact Or.inr ⟨heq, Or.inr ⟨hy2, hx⟩⟩
      · rintro (h | ⟨_, h | ⟨_, hx⟩⟩)
        · exact absurd heq (by linarith)
        · exact absurd h hy
        · exact hx
    · constructor
      · intro hff
        exact absurd hff (by decide)
      · rintro (h | ⟨_, h | ⟨hyy, _⟩⟩)
        · exact absurd heq (by linarith)
        · exact absurd h hy
        · exact absurd hyy hy2
  · have hlt := (prioSign_eq_negone_iff e1.1 e2.1).mp hs
    have hval : entryLT e1 e2 = true := by simp [entryLT, hs]
    rw [hval]
    constructor
    · intro _
      exact Or.inl hlt
    · intro _
      rfl

theorem entryLT_asymm (e1 e2 : Prio × Coord) (h : entryLT e1 e2 = true) :
    entryLT e2 e1 = false := by
  have h1 := (entryLT_iff e1 e2).mp h
  cases hb : entryLT e2 e1 with
  | false => rfl
  | true =>
    have h2 := (entryLT_iff e2 e1).mp hb
    exfalso
    rcases h1 with ha | ⟨ha, hc⟩ <;> rcases h2 with hb2 | ⟨hb2, hd⟩
    · linarith
    · linarith
    · linarith
    · rcases hc with hc | ⟨hc, hc2⟩ <;> rcases hd with hd | ⟨hd, hd2⟩ <;> omega

theorem entryLT_negtrans (e1 e2 e3 : Prio × Coord)
    (h12 : entryLT e1 e2 = false) (h23 : entryLT e2 e3 = false) :
    entryLT e1 e3 = false := by
  cases h13 : entryLT e1 e3 with
  | false => rfl
  | true =>
    exfalso
    have hr13 := (entryLT_iff e1 e3).mp h13
    have h12n : ¬(e1.1.toReal < e2.1.toReal ∨
        (e1.1.toReal = e2.1.toReal ∧
          (e1.2.1 < e2.2.1 ∨ (e1.2.1 = e2.2.1 ∧ e1.2.2 < e2.2.2)))) := by
      intro hr
      have := (entryLT_iff e1 e2).mpr hr
      rw [h12] at this
      exact Bool.noConfusion this
    have h23n : ¬(e2.1.toReal < e3.1.toReal ∨
        (e2.1.toReal = e3.1.toReal ∧
          (e2.2.1 < e3.2.1 ∨ (e2.2.1 = e3.2.1 ∧ e2.2.2 < e3.2.2)))) := by
      intro hr
      have := (entryLT_iff e2 e3).mpr hr
      rw [h23] at this
      exact Bool.noConfusion this
    push_neg at h12n h23n
    obtain ⟨h12a, h12b⟩ := h12n
    obtain ⟨h23a, h23b⟩ := h23n
    rcases hr13 with ha | ⟨ha, hc⟩
    · -- strict on the real priorities, yet p3 ≤ p2 ≤ p1
      linarith
    · -- equal real priorities throughout; the coordinate orders contradict
      have he12 : e1.1.toReal = e2.1.toReal := by linarith
      have he23 : e2.1.toReal = e3.1.toReal := by linarith
      obtain ⟨hy12, hx12⟩ := h12b he12
      obtain ⟨hy23, hx23⟩ := h23b he23
      rcases hc with hyl | ⟨hye, hxl⟩
      · omega
      · have h1 : e1.2.1 = e2.2.1 := by omega
        have h2 : e2.2.1 = e3.2.1 := by omega
        have hx1 := hx12 h1
        have hx2 := hx23 h2
        omega

theorem popMin_spec : ∀ (l : List (Prio × Coord)) (e : Prio × Coord)
    (rest : List (Prio × Coord)), popMin l = some (e, rest) →
    List.Perm l (e :: rest) ∧ ∀ e2 ∈ rest, entryLT e2 e = false := by
  intro l
  induction l with
  | nil =>
    intro e rest h
    exact Option.noConfusion h
  | cons a as ih =>
    intro e rest h
    unfold popMin at h
    cases hpm : popMin as with
    | none =>
      have has : as = [] := by
        cases as with
        | nil => rfl
        | cons b bs =>
          exfalso
          unfold popMin at hpm
          cases hpm2 : popMin bs with
          | none =>
            rw [hpm2] at hpm
            exact Option.noConfusion hpm
          | some mr2 =>
            obtain ⟨me2, r3⟩ := mr2
            rw [hpm2] at hpm
            have hpm3 : (if entryLT me2 b then some ((me2, b :: r3))
                else some ((b, bs)) :
                Option ((Prio × Coord) × List (Prio × Coord))) = none := hpm
            by_cases hl2 : entryLT me2 b = true
            · rw [if_pos hl2] at hpm3
              exact Option.noConfusion hpm3
            · rw [if_neg hl2] at hpm3
              exact Option.noConfusion hpm3
      subst has
      rw [hpm] at h
      have h2 : (some ((a, [])) :
          Option ((Prio × Coord) × List (Prio × Coord))) = some (e, rest) := h
      injection h2 with h3
      injection h3 with h4 h5
      subst h4
      subst h5
      exact ⟨List.Perm.refl _, by intro e2 he2; cases he2⟩
    | some mr =>
      obtain ⟨me, r2⟩ := mr
      rw [hpm] at h
      obtain ⟨hperm, hmin⟩ := ih me r2 hpm
      have h2 : (if entryLT me a then some ((me, a :: r2))
          else some ((a, as)) :
          Option ((Prio × Coord) × List (Prio × Coord))) = some (e, rest) := h
      by_cases hlt : entryLT me a = true
      · rw [if_pos hlt] at h2
        injection h2 with h3
        injection h3 with h4 h5
        subst h4
        subst h5
        constructor
        · exact (List.Perm.cons a hperm).trans (List.Perm.swap me a r2)
        · intro e2 he2
          rcases List.mem_cons.mp he2 with rfl | he3
          · exact entryLT_asymm _ _ hlt
          · exact hmin e2 he3
      · rw [if_neg hlt] at h2
        injection h2 with h3
        injection h3 with h4 h5
        subst h4
        subst h5
        refine ⟨List.Perm.refl _, ?_⟩
        intro e2 he2
        have hflt : entryLT me a = false := by
          cases hx : entryLT me a with
          | false => rfl
          | true => exact absurd hx hlt
        have he3 : e2 ∈ me :: r2 := hperm.mem_iff.mp he2
        rcases List.mem_cons.mp he3 with rfl | he4
        · exact hflt
        · exact entryLT_negtrans _ _ _ (hmin e2 he4) hflt
